/-
Verification development for the quagmire polyalphabetic cipher solver
(src/quagmire.c).  Each C function used by the checked claims is shallowly
embedded as a Lean definition over `List ℕ` (alphabet symbols are naturals
below 26), `ℤ` (C `int` arithmetic where signs matter) and `ℝ` (C `double`
arithmetic, idealised as real arithmetic).  Arrays are embedded as lists;
the parallel arrays `crib_positions`/`crib_indices` are embedded as a single
list of `(position, symbol)` pairs.
-/
import Mathlib

namespace Quagmire

/-! ### Constants

`ALPHABET_SIZE = 26` throughout.  The cipher type codes follow the
`-type` CLI contract (0 Vigenère, 1..4 Quagmire I..IV, 5 Beaufort). -/

def VIGENERE : ℕ := 0
def QUAGMIRE_1 : ℕ := 1
def QUAGMIRE_2 : ℕ := 2
def QUAGMIRE_3 : ℕ := 3
def QUAGMIRE_4 : ℕ := 4
def BEAUFORT : ℕ := 5

/-- The C idiom `indx = x % ALPHABET_SIZE; if (indx < 0) indx += ALPHABET_SIZE;`
applied to an `int`: this is exactly the Euclidean remainder by 26. -/
def modA (a : ℤ) : ℕ := (a % 26).toNat

/-- The linear search `for (j = 0; j < ALPHABET_SIZE; j++) if (key[j] == x) ...`
used by `quagmire_decrypt`/`quagmire_encrypt`: position of the first occurrence
of `x` in `key`.  When `x` does not occur, the C position variable is left
unset (undefined behaviour); the embedding yields `key.length` there. -/
def findPos (key : List ℕ) (x : ℕ) : ℕ := key.findIdx (fun v => v == x)

/-- The cycleword symbol used at position `i`:
`cw_indx = cycleword_indices[i % cycleword_len]`, and for the Beaufort flag
the Atbash `cw_indx = ALPHABET_SIZE - cw_indx - 1` (which equals `25 - cw_indx`
for the in-range symbols `cw_indx < 26`). -/
def cycleword_symbol (cycle : List ℕ) (beaufort : Bool) (i : ℕ) : ℕ :=
  let cw0 := cycle.getD (i % cycle.length) 0
  if beaufort then 25 - cw0 else cw0

/-- Embedding of `quagmire_decrypt` (src/quagmire.c:1804).  For each position:
find the ciphertext symbol in the ciphertext keyword, find the (possibly
Atbashed) cycleword symbol in the ciphertext keyword, subtract the positions
mod 26, read the plaintext keyword there, and Atbash the output for Beaufort. -/
def quagmire_decrypt (cipher ptKey ctKey cycle : List ℕ) (beaufort : Bool) :
    List ℕ :=
  (List.range cipher.length).map (fun i =>
    let posn_keyword := findPos ctKey (cipher.getD i 0)
    let posn_cycleword := findPos ctKey (cycleword_symbol cycle beaufort i)
    let indx := modA ((posn_keyword : ℤ) - (posn_cycleword : ℤ))
    let d := ptKey.getD indx 0
    if beaufort then 25 - d else d)

/-- Embedding of `quagmire_encrypt` (src/quagmire.c:1849).  Symmetric to
decryption: find the plaintext symbol in the plaintext keyword, find the
cycleword symbol in the ciphertext keyword, add the positions mod 26 (the
C negative-fix is dead code for a sum of nonnegative ints), read the
ciphertext keyword there, Atbash for Beaufort. -/
def quagmire_encrypt (plaintext ptKey ctKey cycle : List ℕ) (beaufort : Bool) :
    List ℕ :=
  (List.range plaintext.length).map (fun i =>
    let posn_keyword := findPos ptKey (plaintext.getD i 0)
    let posn_cycleword := findPos ctKey (cycleword_symbol cycle beaufort i)
    let indx := (posn_keyword + posn_cycleword) % 26
    let e := ctKey.getD indx 0
    if beaufort then 25 - e else e)

/-- A valid keyword permutation: an arrangement of the 26 alphabet symbols. -/
def IsKeyword (key : List ℕ) : Prop := key.Perm (List.range 26)

theorem IsKeyword.length {key : List ℕ} (h : IsKeyword key) : key.length = 26 := by
  simpa using h.length_eq

theorem IsKeyword.nodup {key : List ℕ} (h : IsKeyword key) : key.Nodup :=
  h.nodup_iff.mpr (List.nodup_range 26)

theorem mem_isKeyword_iff {key : List ℕ} (h : IsKeyword key) {x : ℕ} :
    x ∈ key ↔ x < 26 := by
  rw [List.Perm.mem_iff h, List.mem_range]

theorem findPos_lt_of_mem {key : List ℕ} {x : ℕ} (h : x ∈ key) :
    findPos key x < key.length :=
  List.findIdx_lt_length.mpr ⟨x, h, by simp⟩

theorem getD_findPos {key : List ℕ} {x : ℕ} (h : x ∈ key) :
    key.getD (findPos key x) 0 = x := by
  have hlt : findPos key x < key.length := findPos_lt_of_mem h
  simp only [findPos] at hlt ⊢
  rw [List.getD_eq_getElem?_getD, List.getElem?_eq_getElem hlt]
  simpa using List.findIdx_getElem (w := hlt)

theorem findPos_getD {key : List ℕ} (hnd : key.Nodup) {s : ℕ}
    (hs : s < key.length) : findPos key (key.getD s 0) = s := by
  have hget : key.getD s 0 = key.get ⟨s, hs⟩ := by
    rw [List.getD_eq_getElem?_getD, List.getElem?_eq_getElem hs]; rfl
  rw [hget]
  simp only [findPos]
  apply (List.findIdx_eq hs).mpr
  refine ⟨by simp, ?_⟩
  intro j hj
  have hjs : j ≠ s := Nat.ne_of_lt hj
  have hinj := @List.Nodup.getElem_inj_iff _ _ hnd j (Nat.lt_trans hj hs) s hs
  simp only [beq_eq_false_iff_ne, ne_eq]
  intro hcontra
  exact hjs (hinj.mp (by simpa using hcontra))

theorem modA_lt (a : ℤ) : modA a < 26 := by
  unfold modA; omega

theorem modA_add_cancel {a b : ℕ} (ha : a < 26) :
    modA ((((a + b) % 26 : ℕ) : ℤ) - (b : ℤ)) = a := by
  unfold modA; omega

theorem modA_sub_add_cancel {c b : ℕ} (hc : c < 26) :
    (modA ((c : ℤ) - (b : ℤ)) + b) % 26 = c := by
  unfold modA; omega

theorem getD_map_range {f : ℕ → ℕ} {n i : ℕ} (h : i < n) :
    ((List.range n).map f).getD i 0 = f i := by
  have hlen : i < ((List.range n).map f).length := by simpa
  rw [List.getD_eq_getElem _ _ hlen]
  simp

theorem cycleword_symbol_lt {W : List ℕ} (hWpos : 0 < W.length)
    (hWr : ∀ w ∈ W, w < 26) (b : Bool) (i : ℕ) :
    cycleword_symbol W b i < 26 := by
  have hmod : i % W.length < W.length := Nat.mod_lt _ hWpos
  have hlt : (W[i % W.length]?).getD 0 < 26 := by
    rw [List.getElem?_eq_getElem hmod]
    exact hWr _ (List.getElem_mem hmod)
  cases b <;> simp [cycleword_symbol] <;> omega

/-- Round trip `decrypt ∘ encrypt = id` for the non-Beaufort transform. -/
theorem decrypt_encrypt_id {P C W M : List ℕ} (hP : IsKeyword P)
    (hC : IsKeyword C) (hW : W ≠ []) (hWr : ∀ w ∈ W, w < 26)
    (hM : ∀ m ∈ M, m < 26) :
    quagmire_decrypt (quagmire_encrypt M P C W false) P C W false = M := by
  have hWpos : 0 < W.length := List.length_pos.mpr hW
  have hElen : (quagmire_encrypt M P C W false).length = M.length := by
    simp [quagmire_encrypt]
  apply List.ext_getElem (by simp [quagmire_decrypt, hElen])
  intro i h1 h2
  have hiM : i < M.length := h2
  simp only [quagmire_decrypt, hElen, List.getElem_map, List.getElem_range]
  rw [if_neg (by decide : ¬ ((false : Bool) = true))]
  -- the symbols in play and their ranges
  have hxM : M.getD i 0 = M[i] := List.getD_eq_getElem M 0 hiM
  have hxlt : M.getD i 0 < 26 := hxM ▸ hM _ (List.getElem_mem hiM)
  have hxP : M.getD i 0 ∈ P := (mem_isKeyword_iff hP).mpr hxlt
  have hwlt : cycleword_symbol W false i < 26 := cycleword_symbol_lt hWpos hWr _ _
  have hwC : cycleword_symbol W false i ∈ C := (mem_isKeyword_iff hC).mpr hwlt
  have hsPlt : findPos P (M.getD i 0) < 26 := by
    have := findPos_lt_of_mem hxP
    rwa [hP.length] at this
  -- the encrypted symbol at position i
  have hEi : (quagmire_encrypt M P C W false).getD i 0 =
      C.getD ((findPos P (M.getD i 0) + findPos C (cycleword_symbol W false i)) % 26) 0 := by
    simp only [quagmire_encrypt]
    rw [getD_map_range hiM]
    rw [if_neg (by decide : ¬ ((false : Bool) = true))]
  have hmodlt :
      (findPos P (M.getD i 0) + findPos C (cycleword_symbol W false i)) % 26 < C.length := by
    rw [hC.length]; exact Nat.mod_lt _ (by norm_num)
  rw [hEi, findPos_getD hC.nodup hmodlt]
  rw [modA_add_cancel hsPlt]
  rw [getD_findPos hxP]
  exact hxM

/-- Round trip `encrypt ∘ decrypt = id` for the non-Beaufort transform. -/
theorem encrypt_decrypt_id {P C W M : List ℕ} (hP : IsKeyword P)
    (hC : IsKeyword C) (hW : W ≠ []) (hWr : ∀ w ∈ W, w < 26)
    (hM : ∀ m ∈ M, m < 26) :
    quagmire_encrypt (quagmire_decrypt M P C W false) P C W false = M := by
  have hWpos : 0 < W.length := List.length_pos.mpr hW
  have hDlen : (quagmire_decrypt M P C W false).length = M.length := by
    simp [quagmire_decrypt]
  apply List.ext_getElem (by simp [quagmire_encrypt, hDlen])
  intro i h1 h2
  have hiM : i < M.length := h2
  simp only [quagmire_encrypt, hDlen, List.getElem_map, List.getElem_range]
  rw [if_neg (by decide : ¬ ((false : Bool) = true))]
  have hxM : M.getD i 0 = M[i] := List.getD_eq_getElem M 0 hiM
  have hxlt : M.getD i 0 < 26 := hxM ▸ hM _ (List.getElem_mem hiM)
  have hxC : M.getD i 0 ∈ C := (mem_isKeyword_iff hC).mpr hxlt
  have hwlt : cycleword_symbol W false i < 26 := cycleword_symbol_lt hWpos hWr _ _
  have hwC : cycleword_symbol W false i ∈ C := (mem_isKeyword_iff hC).mpr hwlt
  have hsXlt : findPos C (M.getD i 0) < 26 := by
    have := findPos_lt_of_mem hxC
    rwa [hC.length] at this
  have hDi : (quagmire_decrypt M P C W false).getD i 0 =
      P.getD (modA ((findPos C (M.getD i 0) : ℤ) -
        (findPos C (cycleword_symbol W false i) : ℤ))) 0 := by
    simp only [quagmire_decrypt]
    rw [getD_map_range hiM]
    rw [if_neg (by decide : ¬ ((false : Bool) = true))]
  have hmodlt : modA ((findPos C (M.getD i 0) : ℤ) -
      (findPos C (cycleword_symbol W false i) : ℤ)) < P.length := by
    rw [hP.length]; exact modA_lt _
  rw [hDi, findPos_getD hP.nodup hmodlt]
  rw [modA_sub_add_cancel hsXlt]
  rw [getD_findPos hxC]
  exact hxM

/-- C1 (amended): for every non-Beaufort use of the transform pair (beaufort
flag off — Vigenère and Quagmire I–IV), valid keyword permutations `P`, `C`,
a nonempty cycleword `W` with entries in `[0,26)`, and a symbol sequence `M`
of length at most 1000 with entries in `[0,26)`,
`quagmire_decrypt (quagmire_encrypt M) = M` and
`quagmire_encrypt (quagmire_decrypt M) = M`.  (With the Beaufort flag on, the
two transforms are not mutually inverse; see the counterexample.) -/
theorem C1_round_trip {P C W M : List ℕ} (hP : IsKeyword P)
    (hC : IsKeyword C) (hW : W ≠ []) (hWr : ∀ w ∈ W, w < 26)
    (hlen : M.length ≤ 1000) (hM : ∀ m ∈ M, m < 26) :
    quagmire_decrypt (quagmire_encrypt M P C W false) P C W false = M ∧
    quagmire_encrypt (quagmire_decrypt M P C W false) P C W false = M :=
  ⟨decrypt_encrypt_id hP hC hW hWr hM, encrypt_decrypt_id hP hC hW hWr hM⟩

/-- C1 witness: the round trip at a concrete instance. -/
theorem C1_round_trip_witness :
    quagmire_decrypt
        (quagmire_encrypt [0, 1, 25] (List.range 26) (List.range 26) [3, 7] false)
        (List.range 26) (List.range 26) [3, 7] false = [0, 1, 25] ∧
    quagmire_encrypt
        (quagmire_decrypt [0, 1, 25] (List.range 26) (List.range 26) [3, 7] false)
        (List.range 26) (List.range 26) [3, 7] false = [0, 1, 25] :=
  C1_round_trip (List.Perm.refl _) (List.Perm.refl _) (by decide) (by decide)
    (by decide) (by decide)

/-- C1 counterexample: with the Beaufort flag on (cipher kind Beaufort) and
the valid key material `P = C = identity`, `W = [0]`, the message `[0]`
encrypts to `[0]` but decrypting that gives `[24]`, so
`quagmire_decrypt (quagmire_encrypt M) ≠ M`: the claimed round trip fails for
the Beaufort kind. -/
theorem C1_beaufort_counterexample :
    IsKeyword (List.range 26) ∧ (∀ w ∈ [0], w < 26) ∧
    ([0] : List ℕ).length ≤ 1000 ∧ (∀ m ∈ ([0] : List ℕ), m < 26) ∧
    quagmire_decrypt (quagmire_encrypt [0] (List.range 26) (List.range 26) [0] true)
      (List.range 26) (List.range 26) [0] true = [24] ∧
    quagmire_decrypt (quagmire_encrypt [0] (List.range 26) (List.range 26) [0] true)
      (List.range 26) (List.range 26) [0] true ≠ [0] := by
  refine ⟨List.Perm.refl _, by decide, by decide, by decide, by decide, by decide⟩

/-- C10: whenever the keyword arrays are permutations of `[0,26)`, the
cycleword entries and input symbols are in `[0,26)`, every inner linear search
of `quagmire_decrypt`/`quagmire_encrypt` finds its target (`findPos < 26`,
i.e. the not-found fall-through that leaves the C position variable unset is
unreachable), and every output symbol is again in `[0,26)`. -/
theorem C10_searches_found {P C W M : List ℕ} (b : Bool) (hP : IsKeyword P)
    (hC : IsKeyword C) (hW : W ≠ []) (hWr : ∀ w ∈ W, w < 26)
    (hM : ∀ m ∈ M, m < 26) :
    (∀ i < M.length, findPos C (M.getD i 0) < 26) ∧
    (∀ i < M.length, findPos P (M.getD i 0) < 26) ∧
    (∀ i, findPos C (cycleword_symbol W b i) < 26) ∧
    (∀ y ∈ quagmire_decrypt M P C W b, y < 26) ∧
    (∀ y ∈ quagmire_encrypt M P C W b, y < 26) := by
  have hClen := hC.length
  have hPlen := hP.length
  have hWpos : 0 < W.length := List.length_pos.mpr hW
  refine ⟨?_, ?_, ?_, ?_, ?_⟩
  · intro i hi
    have hx : M.getD i 0 < 26 := by
      rw [List.getD_eq_getElem M 0 hi]; exact hM _ (List.getElem_mem hi)
    have := findPos_lt_of_mem ((mem_isKeyword_iff hC).mpr hx)
    rwa [hClen] at this
  · intro i hi
    have hx : M.getD i 0 < 26 := by
      rw [List.getD_eq_getElem M 0 hi]; exact hM _ (List.getElem_mem hi)
    have := findPos_lt_of_mem ((mem_isKeyword_iff hP).mpr hx)
    rwa [hPlen] at this
  · intro i
    have hw := cycleword_symbol_lt hWpos hWr b i
    have := findPos_lt_of_mem ((mem_isKeyword_iff hC).mpr hw)
    rwa [hClen] at this
  · intro y hy
    simp only [quagmire_decrypt, List.mem_map, List.mem_range] at hy
    obtain ⟨i, hi, rfl⟩ := hy
    have hidx : modA ((findPos C (M.getD i 0) : ℤ) -
        (findPos C (cycleword_symbol W b i) : ℤ)) < P.length := by
      rw [hPlen]; exact modA_lt _
    have hmem : P.getD (modA ((findPos C (M.getD i 0) : ℤ) -
        (findPos C (cycleword_symbol W b i) : ℤ))) 0 ∈ P := by
      rw [List.getD_eq_getElem _ _ hidx]; exact List.getElem_mem hidx
    have hlt := (mem_isKeyword_iff hP).mp hmem
    cases b <;> simp at hlt ⊢ <;> omega
  · intro y hy
    simp only [quagmire_encrypt, List.mem_map, List.mem_range] at hy
    obtain ⟨i, hi, rfl⟩ := hy
    have hidx : (findPos P (M.getD i 0) + findPos C (cycleword_symbol W b i)) % 26
        < C.length := by
      rw [hClen]; exact Nat.mod_lt _ (by norm_num)
    have hmem : C.getD ((findPos P (M.getD i 0) +
        findPos C (cycleword_symbol W b i)) % 26) 0 ∈ C := by
      rw [List.getD_eq_getElem _ _ hidx]; exact List.getElem_mem hidx
    have hlt := (mem_isKeyword_iff hC).mp hmem
    cases b <;> simp at hlt ⊢ <;> omega

/-- C10 witness: the search/range guarantees at a concrete instance. -/
theorem C10_searches_found_witness :
    (∀ i < ([1, 2] : List ℕ).length, findPos (List.range 26) (([1, 2] : List ℕ).getD i 0) < 26) ∧
    (∀ i < ([1, 2] : List ℕ).length, findPos (List.range 26) (([1, 2] : List ℕ).getD i 0) < 26) ∧
    (∀ i, findPos (List.range 26) (cycleword_symbol [4] false i) < 26) ∧
    (∀ y ∈ quagmire_decrypt [1, 2] (List.range 26) (List.range 26) [4] false, y < 26) ∧
    (∀ y ∈ quagmire_encrypt [1, 2] (List.range 26) (List.range 26) [4] false, y < 26) :=
  C10_searches_found false (List.Perm.refl _) (List.Perm.refl _) (by decide)
    (by decide) (by decide)

/-! ### C6: `cribs_satisfied_p` (src/quagmire.c:1414)

The per-column matrix `crib_frequencies[pt][ct]` is embedded as a Boolean
function `ℕ → ℕ → Bool`; a crib at position `pos` belongs to column `j`
exactly when `pos` occurs among the column indices `{p·k + j < cipher_len}`,
i.e. when `pos < cipher_len` and `pos % p = j`. -/

/-- The row scan of `cribs_satisfied_p`: some row total exceeds 1. -/
def rowClash (m : ℕ → ℕ → Bool) : Bool :=
  decide (∃ ii ∈ Finset.range 26,
    1 < ((Finset.range 26).filter (fun jj => m ii jj = true)).card)

/-- The column scan of `cribs_satisfied_p`: some column total exceeds 1. -/
def colClash (m : ℕ → ℕ → Bool) : Bool :=
  decide (∃ jj ∈ Finset.range 26,
    1 < ((Finset.range 26).filter (fun ii => m ii jj = true)).card)

/-- One column of the crib loop of `cribs_satisfied_p`: process the cribs in
order; for a crib in this column set the matrix cell
`(crib symbol, ciphertext symbol)` and immediately rescan the matrix for a
row or column clash, returning `false` on the first clash. -/
def cribs_column_ok (cipher : List ℕ) (p j : ℕ) :
    List (ℕ × ℕ) → (ℕ → ℕ → Bool) → Bool
  | [], _ => true
  | c :: rest, m =>
    if c.1 % p = j ∧ c.1 < cipher.length then
      let m2 : ℕ → ℕ → Bool :=
        fun a b => (a == c.2 && b == cipher.getD c.1 0) || m a b
      if rowClash m2 || colClash m2 then false
      else cribs_column_ok cipher p j rest m2
    else cribs_column_ok cipher p j rest m

/-- Embedding of `cribs_satisfied_p`: `true` when there are no cribs,
otherwise every column of the candidate period must pass the clash scan.
(The C function returns `false` at the first clash of the first bad column;
the resulting boolean is the same.) -/
def cribs_satisfied_p (cipher : List ℕ) (cribs : List (ℕ × ℕ)) (p : ℕ) :
    Bool :=
  if cribs.isEmpty then true
  else (List.range p).all
    (fun j => cribs_column_ok cipher p j cribs (fun _ _ => false))

/-- The `(ciphertext symbol, plaintext symbol)` pairs that the cribs induce
in column `j` (spec §4.3 wording). -/
def columnCribPairs (cipher : List ℕ) (cribs : List (ℕ × ℕ)) (p j : ℕ) :
    List (ℕ × ℕ) :=
  (cribs.filter (fun c => decide (c.1 % p = j) && decide (c.1 < cipher.length))).map
    (fun c => (cipher.getD c.1 0, c.2))

/-- A partial bijection between ciphertext and plaintext symbols: no two
plaintext symbols share a ciphertext symbol and vice versa. -/
def IsPartialBijection (l : List (ℕ × ℕ)) : Prop :=
  ∀ a ∈ l, ∀ b ∈ l, (a.1 = b.1 ↔ a.2 = b.2)

/-- The matrix cells set after processing a crib list (matrix orientation:
`(plaintext symbol, ciphertext symbol)`). -/
def cribMatrixPairs (cipher : List ℕ) (p j : ℕ) (cs : List (ℕ × ℕ)) :
    List (ℕ × ℕ) :=
  (cs.filter (fun c => decide (c.1 % p = j) && decide (c.1 < cipher.length))).map
    (fun c => (c.2, cipher.getD c.1 0))

theorem rowClash_iff (m : ℕ → ℕ → Bool) :
    rowClash m = true ↔ ∃ ii < 26, ∃ a < 26, ∃ b < 26,
      a ≠ b ∧ m ii a = true ∧ m ii b = true := by
  unfold rowClash
  rw [decide_eq_true_iff]
  constructor
  · rintro ⟨ii, hii, hcard⟩
    rw [Finset.one_lt_card] at hcard
    obtain ⟨a, ha, b, hb, hab⟩ := hcard
    simp only [Finset.mem_filter, Finset.mem_range] at ha hb hii
    exact ⟨ii, hii, a, ha.1, b, hb.1, hab, ha.2, hb.2⟩
  · rintro ⟨ii, hii, a, ha, b, hb, hab, hma, hmb⟩
    refine ⟨ii, Finset.mem_range.mpr hii, ?_⟩
    rw [Finset.one_lt_card]
    exact ⟨a, Finset.mem_filter.mpr ⟨Finset.mem_range.mpr ha, hma⟩,
      b, Finset.mem_filter.mpr ⟨Finset.mem_range.mpr hb, hmb⟩, hab⟩

theorem colClash_iff (m : ℕ → ℕ → Bool) :
    colClash m = true ↔ ∃ jj < 26, ∃ a < 26, ∃ b < 26,
      a ≠ b ∧ m a jj = true ∧ m b jj = true := by
  unfold colClash
  rw [decide_eq_true_iff]
  constructor
  · rintro ⟨jj, hjj, hcard⟩
    rw [Finset.one_lt_card] at hcard
    obtain ⟨a, ha, b, hb, hab⟩ := hcard
    simp only [Finset.mem_filter, Finset.mem_range] at ha hb hjj
    exact ⟨jj, hjj, a, ha.1, b, hb.1, hab, ha.2, hb.2⟩
  · rintro ⟨jj, hjj, a, ha, b, hb, hab, hma, hmb⟩
    refine ⟨jj, Finset.mem_range.mpr hjj, ?_⟩
    rw [Finset.one_lt_card]
    exact ⟨a, Finset.mem_filter.mpr ⟨Finset.mem_range.mpr ha, hma⟩,
      b, Finset.mem_filter.mpr ⟨Finset.mem_range.mpr hb, hmb⟩, hab⟩

/-- The clash scans only depend on the matrix pointwise. -/
theorem clash_congr {m m2 : ℕ → ℕ → Bool} (h : ∀ a b, m a b = m2 a b) :
    (rowClash m || colClash m) = (rowClash m2 || colClash m2) := by
  have hm : m = m2 := funext (fun a => funext (fun b => h a b))
  rw [hm]

/-- Monotonicity of the clash scans. -/
theorem clash_mono {m m2 : ℕ → ℕ → Bool}
    (h : ∀ a b, m a b = true → m2 a b = true)
    (hc : (rowClash m || colClash m) = true) :
    (rowClash m2 || colClash m2) = true := by
  rcases Bool.or_eq_true_iff.mp hc with hr | hcc
  · rcases (rowClash_iff m).mp hr with ⟨ii, hii, a, ha, b, hb, hab, hma, hmb⟩
    exact Bool.or_eq_true_iff.mpr (Or.inl ((rowClash_iff m2).mpr
      ⟨ii, hii, a, ha, b, hb, hab, h _ _ hma, h _ _ hmb⟩))
  · rcases (colClash_iff m).mp hcc with ⟨jj, hjj, a, ha, b, hb, hab, hma, hmb⟩
    exact Bool.or_eq_true_iff.mpr (Or.inr ((colClash_iff m2).mpr
      ⟨jj, hjj, a, ha, b, hb, hab, h _ _ hma, h _ _ hmb⟩))

theorem cribMatrixPairs_nil (cipher : List ℕ) (p j : ℕ) :
    cribMatrixPairs cipher p j [] = [] := rfl

theorem cribMatrixPairs_cons_mem (cipher : List ℕ) (p j : ℕ) (c : ℕ × ℕ)
    (rest : List (ℕ × ℕ)) (h : c.1 % p = j ∧ c.1 < cipher.length) :
    cribMatrixPairs cipher p j (c :: rest) =
      (c.2, cipher.getD c.1 0) :: cribMatrixPairs cipher p j rest := by
  simp [cribMatrixPairs, List.filter_cons, h.1, h.2]

theorem cribMatrixPairs_cons_not_mem (cipher : List ℕ) (p j : ℕ) (c : ℕ × ℕ)
    (rest : List (ℕ × ℕ)) (h : ¬ (c.1 % p = j ∧ c.1 < cipher.length)) :
    cribMatrixPairs cipher p j (c :: rest) = cribMatrixPairs cipher p j rest := by
  rcases Decidable.not_and_iff_or_not.mp h with h1 | h1 <;>
    simp [cribMatrixPairs, List.filter_cons, h1]

/-- Characterisation of a single column scan: starting from a clash-free
matrix, the scan succeeds iff the matrix extended with all of the column's
crib cells remains clash-free. -/
theorem cribs_column_ok_iff (cipher : List ℕ) (p j : ℕ) :
    ∀ (cs : List (ℕ × ℕ)) (m : ℕ → ℕ → Bool),
    (rowClash m || colClash m) = false →
    (cribs_column_ok cipher p j cs m = true ↔
      (rowClash (fun a b => m a b ||
          decide ((a, b) ∈ cribMatrixPairs cipher p j cs)) ||
        colClash (fun a b => m a b ||
          decide ((a, b) ∈ cribMatrixPairs cipher p j cs))) = false)
  | [], m, hm => by
    have hc : (rowClash (fun a b => m a b ||
          decide ((a, b) ∈ cribMatrixPairs cipher p j [])) ||
        colClash (fun a b => m a b ||
          decide ((a, b) ∈ cribMatrixPairs cipher p j []))) =
        (rowClash m || colClash m) :=
      clash_congr (fun a b => by simp [cribMatrixPairs_nil])
    rw [hc]
    simp [cribs_column_ok, hm]
  | c :: rest, m, hm => by
    by_cases hcol : c.1 % p = j ∧ c.1 < cipher.length
    · have hpt : ∀ a b,
          (m a b || decide ((a, b) ∈ cribMatrixPairs cipher p j (c :: rest))) =
          (((a == c.2 && b == cipher.getD c.1 0) || m a b) ||
            decide ((a, b) ∈ cribMatrixPairs cipher p j rest)) := by
        intro a b
        rw [cribMatrixPairs_cons_mem cipher p j c rest hcol]
        by_cases h1 : (a, b) = (c.2, cipher.getD c.1 0)
        · have ha : a = c.2 := congrArg Prod.fst h1
          have hb : b = cipher.getD c.1 0 := congrArg Prod.snd h1
          simp [List.mem_cons, h1, ha, hb]
        · have hfalse : ¬ (a == c.2 && b == cipher.getD c.1 0) = true := by
            intro hcontra
            have hand := Bool.and_eq_true_iff.mp hcontra
            exact h1 (Prod.ext (by simpa using hand.1) (by simpa using hand.2))
          have hf2 : (a == c.2 && b == cipher.getD c.1 0) = false :=
            Bool.eq_false_iff.mpr hfalse
          have hdec : decide ((a, b) ∈
              (c.2, cipher.getD c.1 0) :: cribMatrixPairs cipher p j rest)
              = decide ((a, b) ∈ cribMatrixPairs cipher p j rest) := by
            by_cases h2 : (a, b) ∈ cribMatrixPairs cipher p j rest
            · rw [decide_eq_true_iff.mpr (List.mem_cons_of_mem _ h2),
                decide_eq_true_iff.mpr h2]
            · have hnc : ¬ (a, b) ∈
                  (c.2, cipher.getD c.1 0) :: cribMatrixPairs cipher p j rest := by
                intro hmc
                rcases List.mem_cons.mp hmc with hx | hx
                · exact h1 hx
                · exact h2 hx
              rw [decide_eq_false_iff_not.mpr hnc, decide_eq_false_iff_not.mpr h2]
          rw [hdec, hf2, Bool.false_or]
      have hrw := clash_congr (fun a b => hpt a b)
      by_cases hclash : (rowClash (fun a b =>
          (a == c.2 && b == cipher.getD c.1 0) || m a b) ||
          colClash (fun a b =>
          (a == c.2 && b == cipher.getD c.1 0) || m a b)) = true
      · have hlhs : cribs_column_ok cipher p j (c :: rest) m = false := by
          simp only [cribs_column_ok, if_pos hcol]
          rw [if_pos hclash]
        have hrhs : (rowClash (fun a b => m a b ||
            decide ((a, b) ∈ cribMatrixPairs cipher p j (c :: rest))) ||
            colClash (fun a b => m a b ||
            decide ((a, b) ∈ cribMatrixPairs cipher p j (c :: rest)))) = true := by
          rw [hrw]
          refine clash_mono (fun a b h => ?_) hclash
          rcases Bool.or_eq_true_iff.mp h with h3 | h3
          · simp only [Bool.and_eq_true_iff, beq_iff_eq] at h3
            simp [h3.1, h3.2]
          · simp [h3]
        rw [hlhs, hrhs]
        simp
      · have hclash2 := Bool.eq_false_iff.mpr hclash
        have hIH := cribs_column_ok_iff cipher p j rest
          (fun a b => (a == c.2 && b == cipher.getD c.1 0) || m a b) hclash2
        have hnot : ¬ ((rowClash (fun a b =>
            (a == c.2 && b == cipher.getD c.1 0) || m a b) ||
            colClash (fun a b =>
            (a == c.2 && b == cipher.getD c.1 0) || m a b)) = true) := by
          rw [hclash2]; simp
        have hlhs : cribs_column_ok cipher p j (c :: rest) m =
            cribs_column_ok cipher p j rest
              (fun a b => (a == c.2 && b == cipher.getD c.1 0) || m a b) := by
          simp only [cribs_column_ok, if_pos hcol]
          rw [if_neg hnot]
        rw [hlhs, hrw]
        exact hIH
    · have hpt : ∀ a b,
          (m a b || decide ((a, b) ∈ cribMatrixPairs cipher p j (c :: rest))) =
          (m a b || decide ((a, b) ∈ cribMatrixPairs cipher p j rest)) := by
        intro a b
        rw [cribMatrixPairs_cons_not_mem cipher p j c rest hcol]
      have hrw := clash_congr (fun a b => hpt a b)
      have hlhs : cribs_column_ok cipher p j (c :: rest) m =
          cribs_column_ok cipher p j rest m := by
        simp only [cribs_column_ok, if_neg hcol]
      rw [hlhs, hrw]
      exact cribs_column_ok_iff cipher p j rest m hm

theorem mem_matrix_iff_mem_column {cipher : List ℕ} {p j : ℕ}
    {cribs : List (ℕ × ℕ)} {a b : ℕ} :
    (a, b) ∈ cribMatrixPairs cipher p j cribs ↔
      (b, a) ∈ columnCribPairs cipher cribs p j := by
  simp only [cribMatrixPairs, columnCribPairs, List.mem_map]
  constructor
  · rintro ⟨c, hc, hceq⟩
    refine ⟨c, hc, ?_⟩
    have h1 : c.2 = a := congrArg Prod.fst hceq
    have h2 : cipher.getD c.1 0 = b := congrArg Prod.snd hceq
    rw [h1, h2]
  · rintro ⟨c, hc, hceq⟩
    refine ⟨c, hc, ?_⟩
    have h1 : cipher.getD c.1 0 = b := congrArg Prod.fst hceq
    have h2 : c.2 = a := congrArg Prod.snd hceq
    rw [h1, h2]

theorem columnCribPairs_bounds {cipher : List ℕ} {p j : ℕ}
    {cribs : List (ℕ × ℕ)} (hsym : ∀ c ∈ cribs, c.2 < 26)
    (hct : ∀ x ∈ cipher, x < 26) {q : ℕ × ℕ}
    (hq : q ∈ columnCribPairs cipher cribs p j) : q.1 < 26 ∧ q.2 < 26 := by
  simp only [columnCribPairs, List.mem_map, List.mem_filter] at hq
  obtain ⟨c, ⟨hcmem, hcond⟩, rfl⟩ := hq
  have hpos : c.1 < cipher.length := by
    have hand := Bool.and_eq_true_iff.mp hcond
    simpa using hand.2
  constructor
  · show cipher.getD c.1 0 < 26
    have hg : cipher.getD c.1 0 = cipher[c.1] := List.getD_eq_getElem cipher 0 hpos
    rw [hg]
    exact hct _ (List.getElem_mem hpos)
  · show c.2 < 26
    exact hsym c hcmem

/-- With in-range symbols, a clash of the full column matrix is exactly a
failure of the partial-bijection property of the column crib pairs. -/
theorem clash_iff_not_partialBijection {cipher : List ℕ} {p j : ℕ}
    {cribs : List (ℕ × ℕ)} (hsym : ∀ c ∈ cribs, c.2 < 26)
    (hct : ∀ x ∈ cipher, x < 26) :
    (rowClash (fun a b => decide ((a, b) ∈ cribMatrixPairs cipher p j cribs)) ||
      colClash (fun a b => decide ((a, b) ∈ cribMatrixPairs cipher p j cribs)))
      = true ↔
    ¬ IsPartialBijection (columnCribPairs cipher cribs p j) := by
  constructor
  · intro hcl
    rcases Bool.or_eq_true_iff.mp hcl with hr | hc
    · rcases (rowClash_iff _).mp hr with ⟨ii, hii, a, ha, b, hb, hab, hma, hmb⟩
      have hA : (a, ii) ∈ columnCribPairs cipher cribs p j :=
        mem_matrix_iff_mem_column.mp (decide_eq_true_iff.mp hma)
      have hB : (b, ii) ∈ columnCribPairs cipher cribs p j :=
        mem_matrix_iff_mem_column.mp (decide_eq_true_iff.mp hmb)
      intro hbij
      have heq := (hbij _ hA _ hB).mpr rfl
      exact hab (by simpa using heq)
    · rcases (colClash_iff _).mp hc with ⟨jj, hjj, a, ha, b, hb, hab, hma, hmb⟩
      have hA : (jj, a) ∈ columnCribPairs cipher cribs p j :=
        mem_matrix_iff_mem_column.mp (decide_eq_true_iff.mp hma)
      have hB : (jj, b) ∈ columnCribPairs cipher cribs p j :=
        mem_matrix_iff_mem_column.mp (decide_eq_true_iff.mp hmb)
      intro hbij
      have heq := (hbij _ hA _ hB).mp rfl
      exact hab (by simpa using heq)
  · intro hbij
    have hex : ∃ a ∈ columnCribPairs cipher cribs p j,
        ∃ b ∈ columnCribPairs cipher cribs p j, ¬ (a.1 = b.1 ↔ a.2 = b.2) := by
      by_contra hno
      push_neg at hno
      exact hbij (fun a ha b hb => hno a ha b hb)
    obtain ⟨A, hA, B, hB, hne⟩ := hex
    have hAb := columnCribPairs_bounds hsym hct hA
    have hBb := columnCribPairs_bounds hsym hct hB
    have hmA : (A.2, A.1) ∈ cribMatrixPairs cipher p j cribs :=
      mem_matrix_iff_mem_column.mpr (by simpa using hA)
    have hmB : (B.2, B.1) ∈ cribMatrixPairs cipher p j cribs :=
      mem_matrix_iff_mem_column.mpr (by simpa using hB)
    by_cases h1 : A.1 = B.1
    · have h2 : A.2 ≠ B.2 := by
        intro hcontra
        exact hne ⟨fun _ => hcontra, fun _ => h1⟩
      refine Bool.or_eq_true_iff.mpr (Or.inr ((colClash_iff _).mpr
        ⟨A.1, hAb.1, A.2, hAb.2, B.2, hBb.2, h2, ?_, ?_⟩))
      · exact decide_eq_true_iff.mpr hmA
      · rw [h1]
        exact decide_eq_true_iff.mpr hmB
    · have h2 : A.2 = B.2 := by
        by_contra hcontra
        exact hne ⟨fun ha => absurd ha h1, fun hb => absurd hb hcontra⟩
      refine Bool.or_eq_true_iff.mpr (Or.inl ((rowClash_iff _).mpr
        ⟨A.2, hAb.2, A.1, hAb.1, B.1, hBb.1, h1, ?_, ?_⟩))
      · exact decide_eq_true_iff.mpr hmA
      · rw [h2]
        exact decide_eq_true_iff.mpr hmB

/-- C6: for every ciphertext, crib set and period `p` (with symbols in
`[0,26)`), `cribs_satisfied_p` returns `false` iff in some column `c < p`
the crib-induced mapping between ciphertext symbols and plaintext symbols is
not a partial bijection (two distinct plaintext symbols paired with one
ciphertext symbol, or two distinct ciphertext symbols paired with one
plaintext symbol); in particular, for ciphertext `AAAA` with cribs mapping
position 0 to `X` (23) and position 2 to `Y` (24) at period 2 it returns
`false`. -/
theorem C6_cribs_satisfied_p_iff :
    (∀ (cipher : List ℕ) (cribs : List (ℕ × ℕ)) (p : ℕ),
      (∀ c ∈ cribs, c.2 < 26) → (∀ x ∈ cipher, x < 26) →
      (cribs_satisfied_p cipher cribs p = false ↔
        ∃ j < p, ¬ IsPartialBijection (columnCribPairs cipher cribs p j))) ∧
    cribs_satisfied_p [0, 0, 0, 0] [(0, 23), (2, 24)] 2 = false := by
  constructor
  · intro cipher cribs p hsym hct
    by_cases hempty : cribs.isEmpty
    · have hnil : cribs = [] := List.isEmpty_iff.mp hempty
      subst hnil
      have hsat : cribs_satisfied_p cipher [] p = true := by
        simp [cribs_satisfied_p]
      rw [hsat]
      constructor
      · intro hcontra
        exact absurd hcontra (by simp)
      · rintro ⟨j, hj, hbad⟩
        refine absurd (fun a ha b hb => ?_) hbad
        exact absurd ha (by simp [columnCribPairs])
    · have hif : cribs_satisfied_p cipher cribs p =
          (List.range p).all
            (fun j => cribs_column_ok cipher p j cribs (fun _ _ => false)) := by
        simp [cribs_satisfied_p, hempty]
      have hstart : (rowClash (fun _ _ => false) ||
          colClash (fun _ _ => false)) = false := by decide
      have hbase : ∀ j, (cribs_column_ok cipher p j cribs (fun _ _ => false) = true ↔
          (rowClash (fun a b => decide ((a, b) ∈ cribMatrixPairs cipher p j cribs)) ||
            colClash (fun a b => decide ((a, b) ∈ cribMatrixPairs cipher p j cribs)))
            = false) := by
        intro j
        have hiff := cribs_column_ok_iff cipher p j cribs (fun _ _ => false) hstart
        have hcg : (rowClash (fun a b => (fun _ _ => false) a b ||
              decide ((a, b) ∈ cribMatrixPairs cipher p j cribs)) ||
            colClash (fun a b => (fun _ _ => false) a b ||
              decide ((a, b) ∈ cribMatrixPairs cipher p j cribs))) =
            (rowClash (fun a b => decide ((a, b) ∈ cribMatrixPairs cipher p j cribs)) ||
            colClash (fun a b => decide ((a, b) ∈ cribMatrixPairs cipher p j cribs))) :=
          clash_congr (fun a b => Bool.false_or _)
        rw [hcg] at hiff
        exact hiff
      rw [hif]
      constructor
      · intro hall
        have hnot : ¬ ((List.range p).all
            (fun j => cribs_column_ok cipher p j cribs (fun _ _ => false)) = true) := by
          rw [hall]; simp
        rw [List.all_eq_true] at hnot
        push_neg at hnot
        obtain ⟨j, hjmem, hok⟩ := hnot
        refine ⟨j, List.mem_range.mp hjmem, ?_⟩
        have hokf : cribs_column_ok cipher p j cribs (fun _ _ => false) = false :=
          Bool.eq_false_iff.mpr hok
        have hclash : (rowClash (fun a b =>
            decide ((a, b) ∈ cribMatrixPairs cipher p j cribs)) ||
            colClash (fun a b =>
            decide ((a, b) ∈ cribMatrixPairs cipher p j cribs))) = true := by
          rcases Bool.eq_false_or_eq_true (rowClash (fun a b =>
              decide ((a, b) ∈ cribMatrixPairs cipher p j cribs)) ||
              colClash (fun a b =>
              decide ((a, b) ∈ cribMatrixPairs cipher p j cribs))) with hfo | hfo
          · exact hfo
          · exact absurd ((hbase j).mpr hfo) (by rw [hokf]; simp)
        exact (clash_iff_not_partialBijection hsym hct).mp hclash
      · rintro ⟨j, hj, hbad⟩
        have hclash := (clash_iff_not_partialBijection hsym hct).mpr hbad
        have hokf : cribs_column_ok cipher p j cribs (fun _ _ => false) = false := by
          rcases Bool.eq_false_or_eq_true
            (cribs_column_ok cipher p j cribs (fun _ _ => false)) with hfo | hfo
          · have := (hbase j).mp hfo
            rw [hclash] at this
            exact absurd this (by simp)
          · exact hfo
        rcases Bool.eq_false_or_eq_true ((List.range p).all
            (fun j => cribs_column_ok cipher p j cribs (fun _ _ => false))) with hfo | hfo
        · rw [List.all_eq_true] at hfo
          have := hfo j (List.mem_range.mpr hj)
          rw [hokf] at this
          exact absurd this (by simp)
        · exact hfo
  · decide

/-- C6 witness: the iff instantiated at the `AAAA` scenario; the accepted
hypotheses hold and column 0 indeed fails the partial-bijection property. -/
theorem C6_cribs_satisfied_p_iff_witness :
    ((∀ c ∈ ([(0, 23), (2, 24)] : List (ℕ × ℕ)), c.2 < 26) ∧
      (∀ x ∈ ([0, 0, 0, 0] : List ℕ), x < 26)) ∧
    (cribs_satisfied_p [0, 0, 0, 0] [(0, 23), (2, 24)] 2 = false ↔
      ∃ j < 2, ¬ IsPartialBijection
        (columnCribPairs [0, 0, 0, 0] [(0, 23), (2, 24)] 2 j)) :=
  ⟨⟨by decide, by decide⟩,
    C6_cribs_satisfied_p_iff.1 [0, 0, 0, 0] [(0, 23), (2, 24)] 2
      (by decide) (by decide)⟩

/-! ### C2: `constrain_cycleword` (src/quagmire.c:1505)

The per-column sentinel array `crib_cyclewords[i] = INACTIVE` is embedded as
an `Option ℕ` accumulator (each column only ever reads and writes its own
slot, so one accumulator per column visit suffices).  The function both
returns the contradiction flag and mutates the cycleword; the embedding
returns the pair `(contradiction, cycleword)`, with the partially-updated
cycleword at the point of an early `return true` preserved. -/

/-- The cycleword symbol a crib derives for its column, for both variant
orientations (src/quagmire.c:1536-1591).  In the variant branch the C code
looks the ciphertext character up in the plaintext keyword and the crib
character in the ciphertext keyword; in the non-variant branch the roles
are swapped.  Both branches read the result from the plaintext keyword. -/
def derived_cycleword_sym (ptKey ctKey : List ℕ) (variant : Bool)
    (ciphertext_char crib_char : ℕ) : ℕ :=
  if variant then
    let posn_keyword := findPos ptKey ciphertext_char
    let posn_cycleword := findPos ctKey crib_char
    ptKey.getD (modA ((posn_cycleword : ℤ) - (posn_keyword : ℤ))) 0
  else
    let posn_keyword := findPos ctKey ciphertext_char
    let posn_cycleword := findPos ptKey crib_char
    ptKey.getD (modA ((posn_keyword : ℤ) - (posn_cycleword : ℤ))) 0

/-- The derived symbol of one crib `c = (position, plaintext symbol)`. -/
def crib_derived_sym (cipher ptKey ctKey : List ℕ) (variant : Bool)
    (c : ℕ × ℕ) : ℕ :=
  derived_cycleword_sym ptKey ctKey variant (cipher.getD c.1 0) c.2

/-- The inner crib loop of `constrain_cycleword` for one column `i`:
`acc` is the column slot of `crib_cyclewords` (`none` = `INACTIVE`).
Returns `(contradiction, slot, cycleword)`. -/
def constrain_column (cipher ptKey ctKey : List ℕ) (variant : Bool)
    (p i : ℕ) : List (ℕ × ℕ) → Option ℕ → List ℕ →
    Bool × Option ℕ × List ℕ
  | [], acc, W => (false, acc, W)
  | c :: rest, acc, W =>
    if c.1 % p = i then
      let sym := crib_derived_sym cipher ptKey ctKey variant c
      match acc with
      | none =>
        constrain_column cipher ptKey ctKey variant p i rest (some sym)
          (W.set i sym)
      | some v =>
        if v = sym then
          constrain_column cipher ptKey ctKey variant p i rest (some v) W
        else (true, some v, W)
    else constrain_column cipher ptKey ctKey variant p i rest acc W

/-- The outer column loop of `constrain_cycleword`, with the early return
on the first contradiction. -/
def constrain_columns (cipher ptKey ctKey : List ℕ)
    (cribs : List (ℕ × ℕ)) (variant : Bool) (p : ℕ) :
    List ℕ → List ℕ → Bool × List ℕ
  | [], W => (false, W)
  | i :: rest, W =>
    match constrain_column cipher ptKey ctKey variant p i cribs none W with
    | (true, _, W2) => (true, W2)
    | (false, _, W2) =>
      constrain_columns cipher ptKey ctKey cribs variant p rest W2

/-- Embedding of `constrain_cycleword`: derive each cycleword position from
the cribs of its column; report a contradiction when two cribs of one column
derive different symbols.  Returns `(contradiction, cycleword)`. -/
def constrain_cycleword (cipher : List ℕ) (cribs : List (ℕ × ℕ))
    (ptKey ctKey W : List ℕ) (p : ℕ) (variant : Bool) : Bool × List ℕ :=
  if cribs.isEmpty then (false, W)
  else constrain_columns cipher ptKey ctKey cribs variant p (List.range p) W

/-- All entries of a list are equal. -/
def AllEq (l : List ℕ) : Prop := ∀ a ∈ l, ∀ b ∈ l, a = b

/-- The derived symbols of the cribs belonging to column `i`. -/
def column_syms (cipher ptKey ctKey : List ℕ) (variant : Bool) (p i : ℕ)
    (cribs : List (ℕ × ℕ)) : List ℕ :=
  (cribs.filter (fun c => decide (c.1 % p = i))).map
    (crib_derived_sym cipher ptKey ctKey variant)

theorem allEq_dup {v : ℕ} {l : List ℕ} :
    AllEq (v :: v :: l) ↔ AllEq (v :: l) := by
  constructor
  · intro h a ha b hb
    refine h a ?_ b ?_ <;> simp only [List.mem_cons] at ha hb ⊢ <;> tauto
  · intro h a ha b hb
    refine h a ?_ b ?_ <;> simp only [List.mem_cons] at ha hb ⊢ <;> tauto

theorem column_syms_cons_mem (cipher ptKey ctKey : List ℕ) (variant : Bool)
    (p i : ℕ) (c : ℕ × ℕ) (rest : List (ℕ × ℕ)) (h : c.1 % p = i) :
    column_syms cipher ptKey ctKey variant p i (c :: rest) =
      crib_derived_sym cipher ptKey ctKey variant c ::
        column_syms cipher ptKey ctKey variant p i rest := by
  simp [column_syms, List.filter_cons, h]

theorem column_syms_cons_not_mem (cipher ptKey ctKey : List ℕ)
    (variant : Bool) (p i : ℕ) (c : ℕ × ℕ) (rest : List (ℕ × ℕ))
    (h : ¬ c.1 % p = i) :
    column_syms cipher ptKey ctKey variant p i (c :: rest) =
      column_syms cipher ptKey ctKey variant p i rest := by
  simp [column_syms, List.filter_cons, h]

/-- The contradiction flag of one column scan: `false` iff the slot seed and
all of the column's derived symbols agree. -/
theorem constrain_column_flag (cipher ptKey ctKey : List ℕ) (variant : Bool)
    (p i : ℕ) : ∀ (cs : List (ℕ × ℕ)) (acc : Option ℕ) (W : List ℕ),
    ((constrain_column cipher ptKey ctKey variant p i cs acc W).1 = false ↔
      AllEq (acc.toList ++ column_syms cipher ptKey ctKey variant p i cs))
  | [], acc, W => by
    have hsyms : column_syms cipher ptKey ctKey variant p i [] = [] := rfl
    rw [hsyms]
    simp only [constrain_column, List.append_nil]
    cases acc <;> simp [AllEq]
  | c :: rest, acc, W => by
    by_cases hcol : c.1 % p = i
    · rw [column_syms_cons_mem cipher ptKey ctKey variant p i c rest hcol]
      cases acc with
      | none =>
        have hstep : constrain_column cipher ptKey ctKey variant p i
            (c :: rest) none W =
            constrain_column cipher ptKey ctKey variant p i rest
              (some (crib_derived_sym cipher ptKey ctKey variant c))
              (W.set i (crib_derived_sym cipher ptKey ctKey variant c)) := by
          simp only [constrain_column, if_pos hcol]
        rw [hstep]
        exact constrain_column_flag cipher ptKey ctKey variant p i rest _ _
      | some v =>
        by_cases hv : v = crib_derived_sym cipher ptKey ctKey variant c
        · have hstep : constrain_column cipher ptKey ctKey variant p i
              (c :: rest) (some v) W =
              constrain_column cipher ptKey ctKey variant p i rest (some v) W := by
            simp only [constrain_column, if_pos hcol]
            rw [if_pos hv]
          rw [hstep, ← hv]
          have hIH := constrain_column_flag cipher ptKey ctKey variant p i
            rest (some v) W
          rw [hIH]
          exact (allEq_dup (v := v)
            (l := column_syms cipher ptKey ctKey variant p i rest)).symm
        · have hstep : (constrain_column cipher ptKey ctKey variant p i
              (c :: rest) (some v) W).1 = true := by
            simp only [constrain_column, if_pos hcol]
            rw [if_neg hv]
          rw [hstep]
          constructor
          · intro hcontra
            exact absurd hcontra (by simp)
          · intro hAE
            exact absurd (hAE v (by simp) _ (by simp)) hv
    · rw [column_syms_cons_not_mem cipher ptKey ctKey variant p i c rest hcol]
      have hstep : constrain_column cipher ptKey ctKey variant p i
          (c :: rest) acc W =
          constrain_column cipher ptKey ctKey variant p i rest acc W := by
        simp only [constrain_column, if_neg hcol]
      rw [hstep]
      exact constrain_column_flag cipher ptKey ctKey variant p i rest acc W

/-- The contradiction flag of the column loop: `false` iff every processed
column's derived symbols agree. -/
theorem constrain_columns_flag (cipher ptKey ctKey : List ℕ)
    (cribs : List (ℕ × ℕ)) (variant : Bool) (p : ℕ) :
    ∀ (cols : List ℕ) (W : List ℕ),
    ((constrain_columns cipher ptKey ctKey cribs variant p cols W).1 = false ↔
      ∀ i ∈ cols, AllEq (column_syms cipher ptKey ctKey variant p i cribs))
  | [], W => by simp [constrain_columns]
  | i :: rest, W => by
    rcases hcol : constrain_column cipher ptKey ctKey variant p i cribs none W
      with ⟨flag, acc2, W2⟩
    have hflag := constrain_column_flag cipher ptKey ctKey variant p i cribs
      none W
    rw [hcol] at hflag
    simp only [List.nil_append, Option.toList] at hflag
    cases flag with
    | true =>
      have hstep : constrain_columns cipher ptKey ctKey cribs variant p
          (i :: rest) W = (true, W2) := by
        simp only [constrain_columns, hcol]
      rw [hstep]
      simp only [List.forall_mem_cons]
      constructor
      · intro hcontra
        exact absurd hcontra (by simp)
      · rintro ⟨hAE, _⟩
        have := hflag.mpr hAE
        exact absurd this (by simp)
    | false =>
      have hstep : constrain_columns cipher ptKey ctKey cribs variant p
          (i :: rest) W = constrain_columns cipher ptKey ctKey cribs variant p
            rest W2 := by
        simp only [constrain_columns, hcol]
      rw [hstep]
      have hIH := constrain_columns_flag cipher ptKey ctKey cribs variant p
        rest W2
      rw [hIH]
      simp only [List.forall_mem_cons]
      have hAEi : AllEq (column_syms cipher ptKey ctKey variant p i cribs) :=
        hflag.mp rfl
      tauto

theorem not_allEq_iff {l : List ℕ} :
    ¬ AllEq l ↔ ∃ a ∈ l, ∃ b ∈ l, a ≠ b := by
  constructor
  · intro h
    by_contra hno
    push_neg at hno
    exact h (fun a ha b hb => hno a ha b hb)
  · rintro ⟨a, ha, b, hb, hab⟩ hAE
    exact hab (hAE a ha b hb)

/-- Contradiction iff two cribs of one column derive different symbols. -/
theorem constrain_cycleword_contradiction_iff (cipher : List ℕ)
    (cribs : List (ℕ × ℕ)) (ptKey ctKey W : List ℕ) (p : ℕ) (variant : Bool)
    (hp : 0 < p) :
    ((constrain_cycleword cipher cribs ptKey ctKey W p variant).1 = true ↔
      ∃ c1 ∈ cribs, ∃ c2 ∈ cribs, c1.1 % p = c2.1 % p ∧
        crib_derived_sym cipher ptKey ctKey variant c1 ≠
          crib_derived_sym cipher ptKey ctKey variant c2) := by
  by_cases hempty : cribs.isEmpty
  · have hnil : cribs = [] := List.isEmpty_iff.mp hempty
    subst hnil
    simp [constrain_cycleword]
  · have hdef : constrain_cycleword cipher cribs ptKey ctKey W p variant =
        constrain_columns cipher ptKey ctKey cribs variant p (List.range p) W := by
      simp [constrain_cycleword, hempty]
    rw [hdef]
    have hflag := constrain_columns_flag cipher ptKey ctKey cribs variant p
      (List.range p) W
    constructor
    · intro htrue
      have hnot : ¬ ((constrain_columns cipher ptKey ctKey cribs variant p
          (List.range p) W).1 = false) := by
        rw [htrue]; simp
      rw [hflag] at hnot
      push_neg at hnot
      obtain ⟨i, hi, hAE⟩ := hnot
      obtain ⟨a, ha, b, hb, hab⟩ := not_allEq_iff.mp hAE
      simp only [column_syms, List.mem_map, List.mem_filter] at ha hb
      obtain ⟨c1, ⟨hc1m, hc1col⟩, rfl⟩ := ha
      obtain ⟨c2, ⟨hc2m, hc2col⟩, rfl⟩ := hb
      refine ⟨c1, hc1m, c2, hc2m, ?_, hab⟩
      have h1 : c1.1 % p = i := by simpa using hc1col
      have h2 : c2.1 % p = i := by simpa using hc2col
      rw [h1, h2]
    · rintro ⟨c1, hc1, c2, hc2, hcol, hne⟩
      rcases Bool.eq_false_or_eq_true ((constrain_columns cipher ptKey ctKey
          cribs variant p (List.range p) W).1) with hfo | hfo
      · exact hfo
      · exfalso
        have hall := hflag.mp hfo
        have hi : c1.1 % p ∈ List.range p :=
          List.mem_range.mpr (Nat.mod_lt _ hp)
        have hAE := hall _ hi
        refine hne (hAE _ ?_ _ ?_)
        · simp only [column_syms, List.mem_map, List.mem_filter]
          exact ⟨c1, ⟨hc1, by simp⟩, rfl⟩
        · simp only [column_syms, List.mem_map, List.mem_filter]
          exact ⟨c2, ⟨hc2, by simp [hcol]⟩, rfl⟩

theorem cycleword_symbol_false (W : List ℕ) (i : ℕ) :
    cycleword_symbol W false i = W.getD (i % W.length) 0 := by
  simp [cycleword_symbol]

/-- Once the column slot is set, the column scan never writes the cycleword
again. -/
theorem constrain_column_W_some (cipher ptKey ctKey : List ℕ)
    (variant : Bool) (p i : ℕ) : ∀ (cs : List (ℕ × ℕ)) (v : ℕ) (W : List ℕ),
    (constrain_column cipher ptKey ctKey variant p i cs (some v) W).2.2 = W
  | [], v, W => rfl
  | c :: rest, v, W => by
    by_cases hcol : c.1 % p = i
    · by_cases hv : v = crib_derived_sym cipher ptKey ctKey variant c
      · have hstep : constrain_column cipher ptKey ctKey variant p i
            (c :: rest) (some v) W =
            constrain_column cipher ptKey ctKey variant p i rest (some v) W := by
          simp only [constrain_column, if_pos hcol]
          rw [if_pos hv]
        rw [hstep]
        exact constrain_column_W_some cipher ptKey ctKey variant p i rest v W
      · have hstep : constrain_column cipher ptKey ctKey variant p i
            (c :: rest) (some v) W = (true, some v, W) := by
          simp only [constrain_column, if_pos hcol]
          rw [if_neg hv]
        rw [hstep]
    · have hstep : constrain_column cipher ptKey ctKey variant p i
          (c :: rest) (some v) W =
          constrain_column cipher ptKey ctKey variant p i rest (some v) W := by
        simp only [constrain_column, if_neg hcol]
      rw [hstep]
      exact constrain_column_W_some cipher ptKey ctKey variant p i rest v W

/-- Shape of the cycleword after one column scan started with an inactive
slot: untouched when the column has no crib, otherwise set at `i` to one of
the column's derived symbols. -/
theorem constrain_column_W_shape (cipher ptKey ctKey : List ℕ)
    (variant : Bool) (p i : ℕ) : ∀ (cs : List (ℕ × ℕ)) (W : List ℕ),
    (column_syms cipher ptKey ctKey variant p i cs = [] ∧
      (constrain_column cipher ptKey ctKey variant p i cs none W).2.2 = W) ∨
    (∃ s ∈ column_syms cipher ptKey ctKey variant p i cs,
      (constrain_column cipher ptKey ctKey variant p i cs none W).2.2 =
        W.set i s)
  | [], W => Or.inl ⟨rfl, rfl⟩
  | c :: rest, W => by
    by_cases hcol : c.1 % p = i
    · right
      refine ⟨crib_derived_sym cipher ptKey ctKey variant c, ?_, ?_⟩
      · rw [column_syms_cons_mem cipher ptKey ctKey variant p i c rest hcol]
        simp
      · have hstep : constrain_column cipher ptKey ctKey variant p i
            (c :: rest) none W =
            constrain_column cipher ptKey ctKey variant p i rest
              (some (crib_derived_sym cipher ptKey ctKey variant c))
              (W.set i (crib_derived_sym cipher ptKey ctKey variant c)) := by
          simp only [constrain_column, if_pos hcol]
        rw [hstep]
        exact constrain_column_W_some cipher ptKey ctKey variant p i rest _ _
    · have hstep : constrain_column cipher ptKey ctKey variant p i
          (c :: rest) none W =
          constrain_column cipher ptKey ctKey variant p i rest none W := by
        simp only [constrain_column, if_neg hcol]
      rw [hstep,
        column_syms_cons_not_mem cipher ptKey ctKey variant p i c rest hcol]
      exact constrain_column_W_shape cipher ptKey ctKey variant p i rest W

theorem constrain_column_W_length (cipher ptKey ctKey : List ℕ)
    (variant : Bool) (p i : ℕ) (cs : List (ℕ × ℕ)) (W : List ℕ) :
    (constrain_column cipher ptKey ctKey variant p i cs none W).2.2.length =
      W.length := by
  rcases constrain_column_W_shape cipher ptKey ctKey variant p i cs W with
    ⟨_, hW⟩ | ⟨s, _, hW⟩ <;> rw [hW] <;> simp

theorem constrain_column_W_untouched (cipher ptKey ctKey : List ℕ)
    (variant : Bool) (p i : ℕ) (cs : List (ℕ × ℕ)) (W : List ℕ) (k : ℕ)
    (hk : k ≠ i) :
    (constrain_column cipher ptKey ctKey variant p i cs none W).2.2.getD k 0 =
      W.getD k 0 := by
  rcases constrain_column_W_shape cipher ptKey ctKey variant p i cs W with
    ⟨_, hW⟩ | ⟨s, _, hW⟩
  · rw [hW]
  · rw [hW]
    rw [List.getD_eq_getElem?_getD, List.getD_eq_getElem?_getD,
      List.getElem?_set_ne (Ne.symm hk)]

/-- After a clash-free column scan, the cycleword holds the (common) derived
symbol of every crib in that column. -/
theorem constrain_column_W_value (cipher ptKey ctKey : List ℕ)
    (variant : Bool) (p i : ℕ) (cs : List (ℕ × ℕ)) (W : List ℕ)
    (hlen : i < W.length)
    (hflag : (constrain_column cipher ptKey ctKey variant p i cs none W).1 =
      false)
    (c : ℕ × ℕ) (hc : c ∈ cs) (hcol : c.1 % p = i) :
    (constrain_column cipher ptKey ctKey variant p i cs none W).2.2.getD i 0 =
      crib_derived_sym cipher ptKey ctKey variant c := by
  have hmem : crib_derived_sym cipher ptKey ctKey variant c ∈
      column_syms cipher ptKey ctKey variant p i cs := by
    simp only [column_syms, List.mem_map, List.mem_filter]
    exact ⟨c, ⟨hc, by simp [hcol]⟩, rfl⟩
  have hAE := (constrain_column_flag cipher ptKey ctKey variant p i cs
    none W).mp hflag
  simp only [Option.toList, List.nil_append] at hAE
  rcases constrain_column_W_shape cipher ptKey ctKey variant p i cs W with
    ⟨hnil, _⟩ | ⟨s, hs, hW⟩
  · rw [hnil] at hmem
    exact absurd hmem (List.not_mem_nil _)
  · rw [hW]
    have hseq : s = crib_derived_sym cipher ptKey ctKey variant c :=
      hAE s hs _ hmem
    rw [List.getD_eq_getElem?_getD, List.getElem?_set_self
      (by simpa using hlen)]
    simpa using hseq

theorem constrain_columns_W_length (cipher ptKey ctKey : List ℕ)
    (cribs : List (ℕ × ℕ)) (variant : Bool) (p : ℕ) :
    ∀ (cols : List ℕ) (W : List ℕ),
    (constrain_columns cipher ptKey ctKey cribs variant p cols W).2.length =
      W.length
  | [], W => rfl
  | i :: rest, W => by
    rcases hcol : constrain_column cipher ptKey ctKey variant p i cribs none W
      with ⟨flag, acc2, W2⟩
    have hlen : W2.length = W.length := by
      have := constrain_column_W_length cipher ptKey ctKey variant p i cribs W
      rw [hcol] at this
      exact this
    cases flag with
    | true =>
      have hstep : constrain_columns cipher ptKey ctKey cribs variant p
          (i :: rest) W = (true, W2) := by
        simp only [constrain_columns, hcol]
      rw [hstep]
      exact hlen
    | false =>
      have hstep : constrain_columns cipher ptKey ctKey cribs variant p
          (i :: rest) W =
          constrain_columns cipher ptKey ctKey cribs variant p rest W2 := by
        simp only [constrain_columns, hcol]
      rw [hstep]
      rw [constrain_columns_W_length cipher ptKey ctKey cribs variant p rest W2]
      exact hlen

theorem constrain_columns_W_untouched (cipher ptKey ctKey : List ℕ)
    (cribs : List (ℕ × ℕ)) (variant : Bool) (p : ℕ) :
    ∀ (cols : List ℕ) (W : List ℕ) (k : ℕ), k ∉ cols →
    (constrain_columns cipher ptKey ctKey cribs variant p cols W).2.getD k 0 =
      W.getD k 0
  | [], W, k, _ => rfl
  | i :: rest, W, k, hk => by
    have hki : k ≠ i := fun h => hk (by rw [h]; exact List.mem_cons_self i rest)
    have hkrest : k ∉ rest := fun h => hk (List.mem_cons_of_mem i h)
    rcases hcol : constrain_column cipher ptKey ctKey variant p i cribs none W
      with ⟨flag, acc2, W2⟩
    have huntouch : W2.getD k 0 = W.getD k 0 := by
      have := constrain_column_W_untouched cipher ptKey ctKey variant p i
        cribs W k hki
      rw [hcol] at this
      exact this
    cases flag with
    | true =>
      have hstep : constrain_columns cipher ptKey ctKey cribs variant p
          (i :: rest) W = (true, W2) := by
        simp only [constrain_columns, hcol]
      rw [hstep]
      exact huntouch
    | false =>
      have hstep : constrain_columns cipher ptKey ctKey cribs variant p
          (i :: rest) W =
          constrain_columns cipher ptKey ctKey cribs variant p rest W2 := by
        simp only [constrain_columns, hcol]
      rw [hstep]
      rw [constrain_columns_W_untouched cipher ptKey ctKey cribs variant p
        rest W2 k hkrest]
      exact huntouch

/-- After a clash-free run over distinct columns, the final cycleword holds
each crib's derived symbol at the crib's column. -/
theorem constrain_columns_W_value (cipher ptKey ctKey : List ℕ)
    (cribs : List (ℕ × ℕ)) (variant : Bool) (p : ℕ) :
    ∀ (cols : List ℕ) (W : List ℕ), cols.Nodup →
    (constrain_columns cipher ptKey ctKey cribs variant p cols W).1 = false →
    ∀ i ∈ cols, i < W.length → ∀ c ∈ cribs, c.1 % p = i →
    (constrain_columns cipher ptKey ctKey cribs variant p cols W).2.getD i 0 =
      crib_derived_sym cipher ptKey ctKey variant c
  | [], W, _, _, i, hi, _, _, _, _ => absurd hi (List.not_mem_nil i)
  | j :: rest, W, hnd, hflag, i, hi, hilen, c, hc, hcol => by
    rcases hcc : constrain_column cipher ptKey ctKey variant p j cribs none W
      with ⟨flag, acc2, W2⟩
    cases flag with
    | true =>
      have hstep : constrain_columns cipher ptKey ctKey cribs variant p
          (j :: rest) W = (true, W2) := by
        simp only [constrain_columns, hcc]
      rw [hstep] at hflag
      exact absurd hflag (by simp)
    | false =>
      have hstep : constrain_columns cipher ptKey ctKey cribs variant p
          (j :: rest) W =
          constrain_columns cipher ptKey ctKey cribs variant p rest W2 := by
        simp only [constrain_columns, hcc]
      rw [hstep] at hflag ⊢
      have hW2len : W2.length = W.length := by
        have := constrain_column_W_length cipher ptKey ctKey variant p j cribs W
        rw [hcc] at this
        exact this
      rcases List.mem_cons.mp hi with hij | hirest
      · subst hij
        have hjrest : i ∉ rest := (List.nodup_cons.mp hnd).1
        rw [constrain_columns_W_untouched cipher ptKey ctKey cribs variant p
          rest W2 i hjrest]
        have hcv := constrain_column_W_value cipher ptKey ctKey variant p i
          cribs W hilen (by rw [hcc]) c hc hcol
        rw [hcc] at hcv
        exact hcv
      · exact constrain_columns_W_value cipher ptKey ctKey cribs variant p
          rest W2 (List.nodup_cons.mp hnd).2 hflag i hirest
          (hW2len ▸ hilen) c hc hcol

theorem modA_sub_modA_cancel {a c : ℕ} (hc : c < 26) :
    modA ((a : ℤ) - ((modA ((a : ℤ) - (c : ℤ)) : ℕ) : ℤ)) = c := by
  unfold modA; omega

theorem add_modA_cancel {a c : ℕ} (hc : c < 26) :
    (a + modA ((c : ℤ) - (a : ℤ))) % 26 = c := by
  unfold modA; omega

/-- With equal plaintext and ciphertext keywords, a clash-free
`constrain_cycleword` makes the decryption (encryption for the variant) hit
every crib. -/
theorem constrain_cycleword_matches_cribs {cipher : List ℕ}
    {cribs : List (ℕ × ℕ)} {ptKey W : List ℕ} {p : ℕ} (variant : Bool)
    (hP : IsKeyword ptKey) (hp : 0 < p) (hWlen : W.length = p)
    (hsym : ∀ c ∈ cribs, c.2 < 26) (hpos : ∀ c ∈ cribs, c.1 < cipher.length)
    (hflag : (constrain_cycleword cipher cribs ptKey ptKey W p variant).1 =
      false) :
    ∀ c ∈ cribs,
      (if variant then
        quagmire_encrypt cipher ptKey ptKey
          (constrain_cycleword cipher cribs ptKey ptKey W p variant).2 false
      else
        quagmire_decrypt cipher ptKey ptKey
          (constrain_cycleword cipher cribs ptKey ptKey W p variant).2
          false).getD c.1 0 = c.2 := by
  intro c hc
  have hne : ¬ cribs.isEmpty := by
    cases cribs with
    | nil => exact absurd hc (List.not_mem_nil c)
    | cons a l => simp
  have hdef : constrain_cycleword cipher cribs ptKey ptKey W p variant =
      constrain_columns cipher ptKey ptKey cribs variant p (List.range p) W := by
    simp [constrain_cycleword, hne]
  rw [hdef] at hflag ⊢
  have hKlen : (constrain_columns cipher ptKey ptKey cribs variant p
      (List.range p) W).2.length = p := by
    rw [constrain_columns_W_length]; exact hWlen
  have hmodi : c.1 % p < p := Nat.mod_lt _ hp
  have hval : (constrain_columns cipher ptKey ptKey cribs variant p
      (List.range p) W).2.getD (c.1 % p) 0 =
      crib_derived_sym cipher ptKey ptKey variant c :=
    constrain_columns_W_value cipher ptKey ptKey cribs variant p
      (List.range p) W (List.nodup_range p) hflag (c.1 % p)
      (List.mem_range.mpr hmodi) (by rw [hWlen]; exact hmodi) c hc rfl
  have hposc : c.1 < cipher.length := hpos c hc
  have hsymc : c.2 < 26 := hsym c hc
  have hmemP : c.2 ∈ ptKey := (mem_isKeyword_iff hP).mpr hsymc
  have hpclt : findPos ptKey c.2 < 26 := by
    have := findPos_lt_of_mem hmemP
    rwa [hP.length] at this
  have hcw : cycleword_symbol (constrain_columns cipher ptKey ptKey cribs
      variant p (List.range p) W).2 false c.1 =
      crib_derived_sym cipher ptKey ptKey variant c := by
    rw [cycleword_symbol_false, hKlen, hval]
  cases variant with
  | false =>
    rw [if_neg (by decide : ¬ ((false : Bool) = true))]
    have hbody : (quagmire_decrypt cipher ptKey ptKey
        (constrain_columns cipher ptKey ptKey cribs false p
          (List.range p) W).2 false).getD c.1 0 =
        ptKey.getD (modA
          ((findPos ptKey (cipher.getD c.1 0) : ℤ) -
           (findPos ptKey (cycleword_symbol (constrain_columns cipher ptKey
              ptKey cribs false p (List.range p) W).2 false c.1) : ℤ))) 0 := by
      simp only [quagmire_decrypt]
      rw [getD_map_range hposc]
      rw [if_neg (by decide : ¬ ((false : Bool) = true))]
    rw [hbody, hcw]
    have hds : crib_derived_sym cipher ptKey ptKey false c =
        ptKey.getD (modA ((findPos ptKey (cipher.getD c.1 0) : ℤ) -
          (findPos ptKey c.2 : ℤ))) 0 := by
      simp [crib_derived_sym, derived_cycleword_sym]
    rw [hds]
    have hmodlt : modA ((findPos ptKey (cipher.getD c.1 0) : ℤ) -
        (findPos ptKey c.2 : ℤ)) < ptKey.length := by
      rw [hP.length]; exact modA_lt _
    rw [findPos_getD hP.nodup hmodlt]
    rw [modA_sub_modA_cancel hpclt]
    exact getD_findPos hmemP
  | true =>
    rw [if_pos rfl]
    have hbody : (quagmire_encrypt cipher ptKey ptKey
        (constrain_columns cipher ptKey ptKey cribs true p
          (List.range p) W).2 false).getD c.1 0 =
        ptKey.getD
          ((findPos ptKey (cipher.getD c.1 0) +
            findPos ptKey (cycleword_symbol (constrain_columns cipher ptKey
              ptKey cribs true p (List.range p) W).2 false c.1)) % 26) 0 := by
      simp only [quagmire_encrypt]
      rw [getD_map_range hposc]
      rw [if_neg (by decide : ¬ ((false : Bool) = true))]
    rw [hbody, hcw]
    have hds : crib_derived_sym cipher ptKey ptKey true c =
        ptKey.getD (modA ((findPos ptKey c.2 : ℤ) -
          (findPos ptKey (cipher.getD c.1 0) : ℤ))) 0 := by
      simp [crib_derived_sym, derived_cycleword_sym]
    rw [hds]
    have hmodlt : modA ((findPos ptKey c.2 : ℤ) -
        (findPos ptKey (cipher.getD c.1 0) : ℤ)) < ptKey.length := by
      rw [hP.length]; exact modA_lt _
    rw [findPos_getD hP.nodup hmodlt]
    rw [add_modA_cancel hpclt]
    exact getD_findPos hmemP

/-- C2 (amended): `constrain_cycleword` returns `true` (contradiction) iff
some cycleword column contains two cribs whose derived cycleword symbols
differ; and whenever it returns `false` and the plaintext and ciphertext
keyword permutations are EQUAL (as for Quagmire III; for `P ≠ C` the property
fails, see the counterexample), decrypting the ciphertext (via
`quagmire_decrypt` for `variant = false`, `quagmire_encrypt` for
`variant = true`) with the constrained cycleword yields the crib plaintext
symbol at every crib position. -/
theorem C2_constrain_cycleword :
    (∀ (cipher : List ℕ) (cribs : List (ℕ × ℕ)) (ptKey ctKey W : List ℕ)
        (p : ℕ) (variant : Bool), 0 < p →
      ((constrain_cycleword cipher cribs ptKey ctKey W p variant).1 = true ↔
        ∃ c1 ∈ cribs, ∃ c2 ∈ cribs, c1.1 % p = c2.1 % p ∧
          crib_derived_sym cipher ptKey ctKey variant c1 ≠
            crib_derived_sym cipher ptKey ctKey variant c2)) ∧
    (∀ (cipher : List ℕ) (cribs : List (ℕ × ℕ)) (ptKey W : List ℕ)
        (p : ℕ) (variant : Bool),
      IsKeyword ptKey → 0 < p → W.length = p →
      (∀ c ∈ cribs, c.2 < 26) → (∀ c ∈ cribs, c.1 < cipher.length) →
      (constrain_cycleword cipher cribs ptKey ptKey W p variant).1 = false →
      ∀ c ∈ cribs,
        (if variant then
          quagmire_encrypt cipher ptKey ptKey
            (constrain_cycleword cipher cribs ptKey ptKey W p variant).2 false
        else
          quagmire_decrypt cipher ptKey ptKey
            (constrain_cycleword cipher cribs ptKey ptKey W p variant).2
            false).getD c.1 0 = c.2) :=
  ⟨fun cipher cribs ptKey ctKey W p variant hp =>
    constrain_cycleword_contradiction_iff cipher cribs ptKey ctKey W p
      variant hp,
   fun cipher cribs ptKey W p variant hP hp hWlen hsym hpos hflag =>
    constrain_cycleword_matches_cribs variant hP hp hWlen hsym hpos hflag⟩

/-- C2 witness: both parts instantiated at a concrete Quagmire III style
input (`P = C = identity`, ciphertext `[5]`, one crib `(0, 3)`, period 1). -/
theorem C2_constrain_cycleword_witness :
    ((constrain_cycleword [5] [(0, 3)] (List.range 26) (List.range 26) [0] 1
        false).1 = true ↔
      ∃ c1 ∈ ([(0, 3)] : List (ℕ × ℕ)), ∃ c2 ∈ ([(0, 3)] : List (ℕ × ℕ)),
        c1.1 % 1 = c2.1 % 1 ∧
        crib_derived_sym [5] (List.range 26) (List.range 26) false c1 ≠
          crib_derived_sym [5] (List.range 26) (List.range 26) false c2) ∧
    (∀ c ∈ ([(0, 3)] : List (ℕ × ℕ)),
      (if false then
        quagmire_encrypt [5] (List.range 26) (List.range 26)
          (constrain_cycleword [5] [(0, 3)] (List.range 26) (List.range 26)
            [0] 1 false).2 false
      else
        quagmire_decrypt [5] (List.range 26) (List.range 26)
          (constrain_cycleword [5] [(0, 3)] (List.range 26) (List.range 26)
            [0] 1 false).2 false).getD c.1 0 = c.2) :=
  ⟨C2_constrain_cycleword.1 [5] [(0, 3)] (List.range 26) (List.range 26)
      [0] 1 false (by decide),
   C2_constrain_cycleword.2 [5] [(0, 3)] (List.range 26) [0] 1 false
      (List.Perm.refl _) (by decide) (by decide) (by decide) (by decide)
      (by decide)⟩

/-- C2 counterexample: with the valid but distinct keyword permutations
`P = [0,1,2,3,5,4,6,...,25]` (positions 4 and 5 swapped) and `C = identity`,
ciphertext `[5]`, the single crib `(0, 0)` and period 1,
`constrain_cycleword` reports no contradiction, yet decrypting with the
constrained cycleword gives symbol 1 — not the crib symbol 0 — at the crib
position.  The claimed crib-match property is false as stated. -/
theorem C2_constrain_cycleword_counterexample :
    IsKeyword [0, 1, 2, 3, 5, 4, 6, 7, 8, 9, 10, 11, 12, 13, 14, 15, 16, 17,
      18, 19, 20, 21, 22, 23, 24, 25] ∧
    IsKeyword (List.range 26) ∧
    (constrain_cycleword [5] [(0, 0)]
      [0, 1, 2, 3, 5, 4, 6, 7, 8, 9, 10, 11, 12, 13, 14, 15, 16, 17, 18, 19,
        20, 21, 22, 23, 24, 25] (List.range 26) [0] 1 false).1 = false ∧
    (quagmire_decrypt [5]
      [0, 1, 2, 3, 5, 4, 6, 7, 8, 9, 10, 11, 12, 13, 14, 15, 16, 17, 18, 19,
        20, 21, 22, 23, 24, 25] (List.range 26)
      (constrain_cycleword [5] [(0, 0)]
        [0, 1, 2, 3, 5, 4, 6, 7, 8, 9, 10, 11, 12, 13, 14, 15, 16, 17, 18,
          19, 20, 21, 22, 23, 24, 25] (List.range 26) [0] 1 false).2
      false).getD 0 0 ≠ 0 := by
  refine ⟨by unfold IsKeyword; decide, List.Perm.refl _, by decide, by decide⟩

/-! ### C9: the `-keywordpermprob` flag (src/quagmire.c:171-179)

The probability-flag branches of the argument loop in `main`, embedded as a
state update on the three probability fields.  The `atof(argv[++i])` value is
the `value` parameter. -/

structure CliProbabilities where
  backtracking_probability : ℝ
  keyword_permutation_probability : ℝ
  slip_probability : ℝ

/-- The `-backtrackprob` / `-keywordpermprob` / `-slipprob` branches of the
CLI loop.  Note line 175 of the source: the `-keywordpermprob` branch
assigns `backtracking_probability`. -/
def parse_probability_flag (ps : CliProbabilities) (flag : String)
    (value : ℝ) : CliProbabilities :=
  if flag = "-backtrackprob" then
    { ps with backtracking_probability := value }
  else if flag = "-keywordpermprob" then
    { ps with backtracking_probability := value }
  else if flag = "-slipprob" then
    { ps with slip_probability := value }
  else ps

/-- C9: parsing `-keywordpermprob F` assigns `F` to the backtracking
probability and leaves the keyword permutation probability at its prior
value, instead of assigning `F` to the keyword permutation probability. -/
theorem C9_keywordpermprob_flag (ps : CliProbabilities) (v : ℝ) :
    (parse_probability_flag ps "-keywordpermprob" v).backtracking_probability
      = v ∧
    (parse_probability_flag ps
        "-keywordpermprob" v).keyword_permutation_probability =
      ps.keyword_permutation_probability := by
  constructor <;> simp [parse_probability_flag]

/-! ### C4: `perturbate_keyword` (src/quagmire.c:1904)

The random draws are parameters: the mode coin (`frand() < 0.2`) selects
between the two modes, and `i`, `j` are the `rand_int` results (in
`[0, keyword_len)` resp. `[keyword_len, len)` for mode 2, both in
`[0, keyword_len)` for mode 1).  `len` is always `ALPHABET_SIZE = 26`. -/

/-- Mode 1 of `perturbate_keyword` (once in 5): swap two positions inside
the keyword block. -/
def perturbate_keyword_swap (s : List ℕ) (i j : ℕ) : List ℕ :=
  (s.set i (s.getD j 0)).set j (s.getD i 0)

/-- Mode 2 of `perturbate_keyword` (four times in 5): move the tail symbol
at `j` into block position `i`, delete position `j` (shifting the tail
down, which duplicates the last entry), then re-insert the displaced block
symbol at the first tail position whose entry exceeds it — or at the last
position if none does — shifting the rest up. -/
def perturbate_keyword_block (s : List ℕ) (keyword_len i j : ℕ) : List ℕ :=
  let len := s.length
  let temp := s.getD i 0
  let s1 := s.set i (s.getD j 0)
  let s2 := s1.take j ++ s1.drop (j + 1) ++ [s1.getD (len - 1) 0]
  let u := s2.drop keyword_len
  let m := min (u.findIdx (fun v => decide (temp < v))) (u.length - 1)
  let k2 := keyword_len + m
  s2.take k2 ++ temp :: ((s2.drop k2).take (len - 1 - k2))

/-- The keyword-array block encoding: an arrangement of the 26 symbols whose
entries from position `k` on are strictly ascending (hence exactly the
symbols not among the first `k`, in ascending order). -/
def KeywordEncoding (s : List ℕ) (k : ℕ) : Prop :=
  s.Perm (List.range 26) ∧ List.Sorted (· < ·) (s.drop k)

theorem set_perm : ∀ (b : List ℕ) (i : ℕ) (x : ℕ), i < b.length →
    (b.set i x).Perm (x :: b.eraseIdx i)
  | [], i, x, h => absurd h (by simp)
  | a :: t, 0, x, _ => by simp
  | a :: t, i + 1, x, h => by
    have hIH := set_perm t i x (by simpa using h)
    have h1 : (a :: t).set (i + 1) x = a :: t.set i x := rfl
    have h2 : (a :: t).eraseIdx (i + 1) = a :: t.eraseIdx i := rfl
    rw [h1, h2]
    exact (hIH.cons a).trans (List.Perm.swap x a _)

theorem perm_cons_eraseIdx : ∀ (b : List ℕ) (i : ℕ), i < b.length →
    b.Perm (b.getD i 0 :: b.eraseIdx i)
  | [], i, h => absurd h (by simp)
  | a :: t, 0, _ => by simp
  | a :: t, i + 1, h => by
    have hIH := perm_cons_eraseIdx t i (by simpa using h)
    have h2 : (a :: t).eraseIdx (i + 1) = a :: t.eraseIdx i := rfl
    have h3 : (a :: t).getD (i + 1) 0 = t.getD i 0 := rfl
    rw [h2, h3]
    exact (hIH.cons a).trans (List.Perm.swap _ a _)

theorem swap_perm : ∀ (s : List ℕ) (i j : ℕ), i < s.length → j < s.length →
    ((s.set i (s.getD j 0)).set j (s.getD i 0)).Perm s
  | [], i, j, hi, _ => absurd hi (by simp)
  | a :: t, 0, 0, _, _ => by simp
  | a :: t, 0, j + 1, _, hj => by
    have hjt : j < t.length := by simpa using hj
    have h1 : ((a :: t).set 0 ((a :: t).getD (j + 1) 0)).set (j + 1)
        ((a :: t).getD 0 0) = t.getD j 0 :: t.set j a := rfl
    rw [h1]
    have hstep1 : (t.getD j 0 :: t.set j a).Perm
        (t.getD j 0 :: (a :: t.eraseIdx j)) := (set_perm t j a hjt).cons _
    have hstep2 : (t.getD j 0 :: (a :: t.eraseIdx j)).Perm
        (a :: (t.getD j 0 :: t.eraseIdx j)) := List.Perm.swap a _ _
    have hstep3 : (a :: (t.getD j 0 :: t.eraseIdx j)).Perm (a :: t) :=
      ((perm_cons_eraseIdx t j hjt).symm).cons a
    exact (hstep1.trans hstep2).trans hstep3
  | a :: t, i + 1, 0, hi, _ => by
    have hit : i < t.length := by simpa using hi
    have h1 : ((a :: t).set (i + 1) ((a :: t).getD 0 0)).set 0
        ((a :: t).getD (i + 1) 0) = t.getD i 0 :: t.set i a := rfl
    rw [h1]
    have hstep1 : (t.getD i 0 :: t.set i a).Perm
        (t.getD i 0 :: (a :: t.eraseIdx i)) := (set_perm t i a hit).cons _
    have hstep2 : (t.getD i 0 :: (a :: t.eraseIdx i)).Perm
        (a :: (t.getD i 0 :: t.eraseIdx i)) := List.Perm.swap a _ _
    have hstep3 : (a :: (t.getD i 0 :: t.eraseIdx i)).Perm (a :: t) :=
      ((perm_cons_eraseIdx t i hit).symm).cons a
    exact (hstep1.trans hstep2).trans hstep3
  | a :: t, i + 1, j + 1, hi, hj => by
    have hIH := swap_perm t i j (by simpa using hi) (by simpa using hj)
    have h1 : ((a :: t).set (i + 1) ((a :: t).getD (j + 1) 0)).set (j + 1)
        ((a :: t).getD (i + 1) 0) =
        a :: ((t.set i (t.getD j 0)).set j (t.getD i 0)) := rfl
    rw [h1]
    exact hIH.cons a

/-- Inserting a fresh element at its `findIdx` position keeps a strictly
ascending list strictly ascending. -/
theorem sorted_insert_findIdx {temp : ℕ} : ∀ {u : List ℕ},
    List.Sorted (· < ·) u → temp ∉ u →
    List.Sorted (· < ·)
      (u.take (u.findIdx (fun v => decide (temp < v))) ++
        temp :: u.drop (u.findIdx (fun v => decide (temp < v))))
  | [], _, _ => by simp
  | a :: u2, hs, hninfix => by
    have hsu2 : List.Sorted (· < ·) u2 := (List.pairwise_cons.mp hs).2
    have hha : ∀ y ∈ u2, a < y := (List.pairwise_cons.mp hs).1
    by_cases hta : temp < a
    · have hidx : (a :: u2).findIdx (fun v => decide (temp < v)) = 0 := by
        rw [List.findIdx_cons]
        simp [hta]
      rw [hidx]
      simp only [List.take_zero, List.drop_zero, List.nil_append]
      refine List.pairwise_cons.mpr ⟨?_, hs⟩
      intro y hy
      rcases List.mem_cons.mp hy with rfl | hy2
      · exact hta
      · exact lt_trans hta (hha y hy2)
    · have hat : a < temp := by
        rcases Nat.lt_trichotomy a temp with h | h | h
        · exact h
        · exact absurd (h ▸ List.mem_cons_self a u2) hninfix
        · exact absurd h hta
      have hidx : (a :: u2).findIdx (fun v => decide (temp < v)) =
          u2.findIdx (fun v => decide (temp < v)) + 1 := by
        rw [List.findIdx_cons]
        simp [hta]
      rw [hidx]
      have hIH := @sorted_insert_findIdx temp u2 hsu2
        (fun h => hninfix (List.mem_cons_of_mem a h))
      simp only [List.take_succ_cons, List.drop_succ_cons, List.cons_append]
      refine List.pairwise_cons.mpr ⟨?_, hIH⟩
      intro y hy
      rcases List.mem_append.mp hy with hy1 | hy2
      · exact hha y (List.mem_of_mem_take hy1)
      · rcases List.mem_cons.mp hy2 with rfl | hy3
        · exact hat
        · exact hha y (List.mem_of_mem_drop hy3)

theorem getD_take_of_lt {s : List ℕ} {k i : ℕ} (hik : i < k)
    (hk : i < s.length) : (s.take k).getD i 0 = s.getD i 0 := by
  have h1 : i < (s.take k).length := by
    rw [List.length_take]; omega
  rw [List.getD_eq_getElem _ _ h1, List.getD_eq_getElem _ _ hk]
  simp

theorem getD_drop_add {s : List ℕ} {k n : ℕ} (h : k + n < s.length) :
    (s.drop k).getD n 0 = s.getD (k + n) 0 := by
  have h1 : n < (s.drop k).length := by
    rw [List.length_drop]; omega
  rw [List.getD_eq_getElem _ _ h1, List.getD_eq_getElem _ _ h]
  simp

/-- Structure of mode 2 of `perturbate_keyword`: with in-range draws the
result is the block with `s[j]` written at `i`, followed by the tail with
`s[j]` removed and the displaced `s[i]` inserted at its `findIdx` slot. -/
theorem perturbate_keyword_block_eq {s : List ℕ} {k i j : ℕ}
    (hlen : s.length = 26) (hik : i < k) (hkj : k ≤ j) (hj : j < 26) :
    perturbate_keyword_block s k i j =
      (s.take k).set i (s.getD j 0) ++
      (((s.drop k).eraseIdx (j - k)).take
          (((s.drop k).eraseIdx (j - k)).findIdx
            (fun v => decide (s.getD i 0 < v))) ++
        s.getD i 0 ::
        ((s.drop k).eraseIdx (j - k)).drop
          (((s.drop k).eraseIdx (j - k)).findIdx
            (fun v => decide (s.getD i 0 < v)))) := by
  have hk26 : k < 26 := lt_of_le_of_lt hkj hj
  have hjk : j - k < (s.drop k).length := by
    rw [List.length_drop, hlen]; omega
  have hBlen : ((s.take k).set i (s.getD j 0)).length = k := by
    rw [List.length_set, List.length_take, hlen]; omega
  have hUlen : ((s.drop k).eraseIdx (j - k)).length = 25 - k := by
    rw [List.length_eraseIdx_of_lt hjk, List.length_drop, hlen]; omega
  -- the deleted-and-duplicated array s2 decomposes as B ++ (U ++ [d])
  have hsplit : ((s.take j).set i (s.getD j 0)) =
      (s.take k).set i (s.getD j 0) ++ (s.drop k).take (j - k) := by
    conv_lhs => rw [← List.take_append_drop k ((s.take j).set i (s.getD j 0))]
    have h1 : ((s.take j).set i (s.getD j 0)).take k =
        (s.take k).set i (s.getD j 0) := by
      rw [List.set_take, List.take_take, min_eq_left hkj]
    have h2 : ((s.take j).set i (s.getD j 0)).drop k = (s.drop k).take (j - k) := by
      rw [List.drop_set, if_pos (by omega : i < k), List.drop_take]
    rw [h1, h2]
  have hdropset : (s.set i (s.getD j 0)).drop (j + 1) = s.drop (j + 1) := by
    rw [List.drop_set, if_pos (by omega : i < j + 1)]
  have hdropdrop : s.drop (j + 1) = (s.drop k).drop ((j - k) + 1) := by
    rw [List.drop_drop]
    congr 1
    omega
  have hs2 : (s.set i (s.getD j 0)).take j ++
      (s.set i (s.getD j 0)).drop (j + 1) ++
      [(s.set i (s.getD j 0)).getD (s.length - 1) 0] =
      ((s.take k).set i (s.getD j 0)) ++
        (((s.drop k).eraseIdx (j - k)) ++
          [(s.set i (s.getD j 0)).getD (s.length - 1) 0]) := by
    rw [List.set_take, hsplit, hdropset, hdropdrop,
      List.eraseIdx_eq_take_drop_succ]
    simp [List.append_assoc]
  -- now unfold the definition and rewrite with the decomposition
  show (let len := s.length
    let temp := s.getD i 0
    let s1 := s.set i (s.getD j 0)
    let s2 := s1.take j ++ s1.drop (j + 1) ++ [s1.getD (len - 1) 0]
    let u := s2.drop k
    let m := min (u.findIdx (fun v => decide (temp < v))) (u.length - 1)
    let k2 := k + m
    s2.take k2 ++ temp :: ((s2.drop k2).take (len - 1 - k2))) = _
  simp only [hs2]
  simp only [hlen]
  -- name the pieces
  generalize hd : (s.set i (s.getD j 0)).getD (26 - 1) 0 = d
  have hu : ((s.take k).set i (s.getD j 0) ++
      ((s.drop k).eraseIdx (j - k) ++ [d])).drop k =
      (s.drop k).eraseIdx (j - k) ++ [d] := List.drop_left' hBlen
  rw [hu]
  have hulen : ((s.drop k).eraseIdx (j - k) ++ [d]).length - 1 = 25 - k := by
    rw [List.length_append, hUlen]
    simp
  rw [hulen]
  have hfle := @List.findIdx_le_length ℕ (fun v => decide (s.getD i 0 < v))
    ((s.drop k).eraseIdx (j - k))
  have hm : min (((s.drop k).eraseIdx (j - k) ++ [d]).findIdx
      (fun v => decide (s.getD i 0 < v))) (25 - k) =
      ((s.drop k).eraseIdx (j - k)).findIdx
        (fun v => decide (s.getD i 0 < v)) := by
    rw [List.findIdx_append]
    by_cases hfound : ((s.drop k).eraseIdx (j - k)).findIdx
        (fun v => decide (s.getD i 0 < v)) <
        ((s.drop k).eraseIdx (j - k)).length
    · rw [if_pos hfound]
      rw [hUlen] at hfound
      omega
    · rw [if_neg hfound]
      rw [hUlen] at hfound hfle
      have hfeq : ((s.drop k).eraseIdx (j - k)).findIdx
          (fun v => decide (s.getD i 0 < v)) = 25 - k := by omega
      rw [hfeq]
      rcases Nat.lt_or_ge (([d] : List ℕ).findIdx
          (fun v => decide (s.getD i 0 < v))) 1 with hone | hone
      · omega
      · omega
  rw [hm]
  -- the take part
  have htake : ((s.take k).set i (s.getD j 0) ++
      ((s.drop k).eraseIdx (j - k) ++ [d])).take
      (k + ((s.drop k).eraseIdx (j - k)).findIdx
        (fun v => decide (s.getD i 0 < v))) =
      (s.take k).set i (s.getD j 0) ++
        ((s.drop k).eraseIdx (j - k)).take
          (((s.drop k).eraseIdx (j - k)).findIdx
            (fun v => decide (s.getD i 0 < v))) := by
    rw [List.take_append_eq_append_take]
    congr 1
    · exact List.take_of_length_le (by rw [hBlen]; omega)
    · rw [hBlen, Nat.add_sub_cancel_left]
      exact List.take_append_of_le_length hfle
  -- the drop part
  have hdrop : (((s.take k).set i (s.getD j 0) ++
      ((s.drop k).eraseIdx (j - k) ++ [d])).drop
      (k + ((s.drop k).eraseIdx (j - k)).findIdx
        (fun v => decide (s.getD i 0 < v)))).take
      (26 - 1 - (k + ((s.drop k).eraseIdx (j - k)).findIdx
        (fun v => decide (s.getD i 0 < v)))) =
      ((s.drop k).eraseIdx (j - k)).drop
        (((s.drop k).eraseIdx (j - k)).findIdx
          (fun v => decide (s.getD i 0 < v))) := by
    have hd1 : ((s.take k).set i (s.getD j 0) ++
        ((s.drop k).eraseIdx (j - k) ++ [d])).drop
        (k + ((s.drop k).eraseIdx (j - k)).findIdx
          (fun v => decide (s.getD i 0 < v))) =
        ((s.drop k).eraseIdx (j - k)).drop
          (((s.drop k).eraseIdx (j - k)).findIdx
            (fun v => decide (s.getD i 0 < v))) ++ [d] := by
      rw [List.drop_append_eq_append_drop]
      rw [List.drop_eq_nil_of_le (by rw [hBlen]; omega), List.nil_append]
      rw [hBlen, Nat.add_sub_cancel_left]
      exact List.drop_append_of_le_length hfle
    rw [hd1]
    apply List.take_left'
    rw [List.length_drop, hUlen]
    omega
  rw [htake, hdrop]
  rw [List.append_assoc]

/-- Mode 1 preserves the block encoding. -/
theorem perturbate_keyword_swap_encoding {s : List ℕ} {k i j : ℕ}
    (hE : KeywordEncoding s k) (hik : i < k) (hjk : j < k) (hk : k ≤ 26) :
    KeywordEncoding (perturbate_keyword_swap s i j) k := by
  obtain ⟨hperm, hsort⟩ := hE
  have hlen : s.length = 26 := by simpa using hperm.length_eq
  constructor
  · exact (swap_perm s i j (by omega) (by omega)).trans hperm
  · have hdrop : (perturbate_keyword_swap s i j).drop k = s.drop k := by
      unfold perturbate_keyword_swap
      rw [List.drop_set, if_pos (by omega : j < k)]
      rw [List.drop_set, if_pos (by omega : i < k)]
    rw [hdrop]
    exact hsort

/-- Mode 2 preserves the block encoding. -/
theorem perturbate_keyword_block_encoding {s : List ℕ} {k i j : ℕ}
    (hE : KeywordEncoding s k) (hik : i < k) (hkj : k ≤ j) (hj : j < 26) :
    KeywordEncoding (perturbate_keyword_block s k i j) k := by
  obtain ⟨hperm, hsort⟩ := hE
  have hlen : s.length = 26 := by simpa using hperm.length_eq
  have hnd : s.Nodup := hperm.nodup_iff.mpr (List.nodup_range 26)
  have hk26 : k < 26 := lt_of_le_of_lt hkj hj
  have hjk2 : j - k < (s.drop k).length := by
    rw [List.length_drop, hlen]; omega
  have hBlen : ((s.take k).set i (s.getD j 0)).length = k := by
    rw [List.length_set, List.length_take, hlen]; omega
  have hitake : i < (s.take k).length := by
    rw [List.length_take, hlen]; omega
  -- the displaced block symbol is fresh for the tail
  have htempmem : s.getD i 0 ∈ s.take k := by
    have hg : (s.take k).getD i 0 = s.getD i 0 :=
      getD_take_of_lt hik (by omega)
    rw [← hg, List.getD_eq_getElem _ _ hitake]
    exact List.getElem_mem hitake
  have hdisj : List.Disjoint (s.take k) (s.drop k) := by
    apply List.disjoint_of_nodup_append
    rw [List.take_append_drop]
    exact hnd
  have htempnot : s.getD i 0 ∉ (s.drop k).eraseIdx (j - k) := by
    intro hmem
    exact hdisj htempmem (List.eraseIdx_subset _ _ hmem)
  have hUsort : List.Sorted (· < ·) ((s.drop k).eraseIdx (j - k)) :=
    List.Pairwise.sublist (List.eraseIdx_sublist _ _) hsort
  rw [perturbate_keyword_block_eq hlen hik hkj hj]
  constructor
  · -- permutation property
    have hgdrop : (s.drop k).getD (j - k) 0 = s.getD j 0 := by
      have := getD_drop_add (s := s) (k := k) (n := j - k)
        (by rw [hlen]; omega)
      rw [this]
      congr 1
      omega
    have hP1 : ((((s.drop k).eraseIdx (j - k)).take
        (((s.drop k).eraseIdx (j - k)).findIdx
          (fun v => decide (s.getD i 0 < v))) ++
        s.getD i 0 ::
        ((s.drop k).eraseIdx (j - k)).drop
          (((s.drop k).eraseIdx (j - k)).findIdx
            (fun v => decide (s.getD i 0 < v))))).Perm
        (s.getD i 0 :: (s.drop k).eraseIdx (j - k)) := by
      refine List.perm_middle.trans ?_
      rw [List.take_append_drop]
    have hP2 : ((s.take k).set i (s.getD j 0)).Perm
        (s.getD j 0 :: (s.take k).eraseIdx i) := by
      have := set_perm (s.take k) i (s.getD j 0) hitake
      exact this
    have hQ1 : (s.take k).Perm (s.getD i 0 :: (s.take k).eraseIdx i) := by
      have := perm_cons_eraseIdx (s.take k) i hitake
      rwa [getD_take_of_lt hik (by omega)] at this
    have hQ2 : (s.drop k).Perm
        (s.getD j 0 :: (s.drop k).eraseIdx (j - k)) := by
      have := perm_cons_eraseIdx (s.drop k) (j - k) hjk2
      rwa [hgdrop] at this
    -- result ~ (x :: eB) ++ (temp :: U) ~ (temp :: eB) ++ (x :: U) ~ s
    have hstep1 := hP2.append hP1
    have hswap : ((s.getD j 0 :: (s.take k).eraseIdx i) ++
        (s.getD i 0 :: (s.drop k).eraseIdx (j - k))).Perm
        ((s.getD i 0 :: (s.take k).eraseIdx i) ++
        (s.getD j 0 :: (s.drop k).eraseIdx (j - k))) := by
      have h1 : ((s.getD j 0 :: (s.take k).eraseIdx i) ++
          (s.getD i 0 :: (s.drop k).eraseIdx (j - k))) =
          s.getD j 0 :: ((s.take k).eraseIdx i ++
            s.getD i 0 :: (s.drop k).eraseIdx (j - k)) := rfl
      have h2 : ((s.getD i 0 :: (s.take k).eraseIdx i) ++
          (s.getD j 0 :: (s.drop k).eraseIdx (j - k))) =
          s.getD i 0 :: ((s.take k).eraseIdx i ++
            s.getD j 0 :: (s.drop k).eraseIdx (j - k)) := rfl
      rw [h1, h2]
      refine ((List.perm_middle).cons (s.getD j 0)).trans ?_
      refine List.Perm.trans ?_ (((List.perm_middle).symm).cons (s.getD i 0))
      exact List.Perm.swap _ _ _
    have hback := (hQ1.append hQ2).symm
    have hchain := (hstep1.trans hswap).trans hback
    have hfinal : ((s.take k).set i (s.getD j 0) ++
        (((s.drop k).eraseIdx (j - k)).take
          (((s.drop k).eraseIdx (j - k)).findIdx
            (fun v => decide (s.getD i 0 < v))) ++
        s.getD i 0 ::
        ((s.drop k).eraseIdx (j - k)).drop
          (((s.drop k).eraseIdx (j - k)).findIdx
            (fun v => decide (s.getD i 0 < v))))).Perm (s.take k ++ s.drop k)
      := hchain
    rw [List.take_append_drop] at hfinal
    exact hfinal.trans hperm
  · -- sortedness of the tail
    have hdropk : ((s.take k).set i (s.getD j 0) ++
        (((s.drop k).eraseIdx (j - k)).take
          (((s.drop k).eraseIdx (j - k)).findIdx
            (fun v => decide (s.getD i 0 < v))) ++
        s.getD i 0 ::
        ((s.drop k).eraseIdx (j - k)).drop
          (((s.drop k).eraseIdx (j - k)).findIdx
            (fun v => decide (s.getD i 0 < v))))).drop k =
        (((s.drop k).eraseIdx (j - k)).take
          (((s.drop k).eraseIdx (j - k)).findIdx
            (fun v => decide (s.getD i 0 < v))) ++
        s.getD i 0 ::
        ((s.drop k).eraseIdx (j - k)).drop
          (((s.drop k).eraseIdx (j - k)).findIdx
            (fun v => decide (s.getD i 0 < v)))) := List.drop_left' hBlen
    rw [hdropk]
    exact sorted_insert_findIdx hUsort htempnot

/-- C4: every keyword state satisfying the block encoding (a permutation of
the 26 symbols whose entries from position `k` on are strictly ascending,
hence exactly the symbols not among the first `k`) is mapped by either
perturbation mode of `perturbate_keyword`, for every outcome of the random
draws (`i, j < k` for the in-block swap; `i < k ≤ j < 26` for the in/out
move), to a state satisfying the same encoding. -/
theorem C4_perturbate_keyword_encoding {s : List ℕ} {k : ℕ}
    (hE : KeywordEncoding s k) (hk : k ≤ 26) :
    (∀ i j, i < k → j < k →
      KeywordEncoding (perturbate_keyword_swap s i j) k) ∧
    (∀ i j, i < k → k ≤ j → j < 26 →
      KeywordEncoding (perturbate_keyword_block s k i j) k) :=
  ⟨fun i j hik hjk => perturbate_keyword_swap_encoding hE hik hjk hk,
   fun i j hik hkj hj => perturbate_keyword_block_encoding hE hik hkj hj⟩

/-- C4 witness: both modes at a concrete encoded state (`k = 3`). -/
theorem C4_perturbate_keyword_encoding_witness :
    KeywordEncoding (perturbate_keyword_swap (List.range 26) 0 1) 3 ∧
    KeywordEncoding (perturbate_keyword_block (List.range 26) 3 0 5) 3 := by
  have hE : KeywordEncoding (List.range 26) 3 := by
    constructor
    · exact List.Perm.refl _
    · decide
  have hth := C4_perturbate_keyword_encoding hE (by decide)
  exact ⟨hth.1 0 1 (by decide) (by decide),
    hth.2 0 5 (by decide) (by decide) (by decide)⟩

/-! ### C3: the composite score (`state_score`, src/quagmire.c:1618-1677)

C doubles are idealised as real numbers.  The n-gram table `ngram_data` is an
arbitrary function `g : ℕ → ℝ` from packed n-gram indices to pre-normalised
log-frequencies. -/

/-- The decrypt step at the top of `state_score` (src/quagmire.c:1630-1638):
`quagmire_encrypt` when `variant`, else `quagmire_decrypt`. -/
def decrypted_text (cipher ptKey ctKey cycle : List ℕ)
    (variant beaufort : Bool) : List ℕ :=
  if variant then quagmire_encrypt cipher ptKey ctKey cycle beaufort
  else quagmire_decrypt cipher ptKey ctKey cycle beaufort

/-- The packed index of the n-gram at position `i` built by the inner loop of
`ngram_score` (src/quagmire.c:1758-1761): `index += decrypted[i + j] * base`
with `base` running through powers of 26. -/
def ngram_index_at (D : List ℕ) (i n : ℕ) : ℕ :=
  ∑ j ∈ Finset.range n, D.getD (i + j) 0 * 26 ^ j

/-- Embedding of `ngram_score` (src/quagmire.c:1748-1771).  The loop bound is
`i < cipher_len - ngram_size`, so exactly `L - n` n-grams are summed; the
result is scaled by `26^n` and divided by `L - n`. -/
noncomputable def ngram_score (D : List ℕ) (g : ℕ → ℝ) (n : ℕ) : ℝ :=
  26 ^ n * (∑ i ∈ Finset.range (D.length - n), g (ngram_index_at D i n)) /
    ((D.length : ℝ) - (n : ℝ))

/-- Embedding of `crib_score` (src/quagmire.c:1728-1742): 0 with no cribs,
else the fraction of crib positions where the text matches. -/
noncomputable def crib_score (text : List ℕ) (cribs : List (ℕ × ℕ)) : ℝ :=
  if cribs.isEmpty then 0
  else ((cribs.countP (fun c => text.getD c.1 0 == c.2) : ℕ) : ℝ) /
    (cribs.length : ℝ)

/-- Embedding of `entropy` (src/quagmire.c:1684-1702); `tally` counts symbol
frequencies, and symbols of zero frequency contribute nothing. -/
noncomputable def entropy (text : List ℕ) : ℝ :=
  -∑ i ∈ Finset.range 26,
    if 0 < text.count i then
      ((text.count i : ℝ) / (text.length : ℝ)) *
        Real.log ((text.count i : ℝ) / (text.length : ℝ))
    else 0

/-- Embedding of `index_of_coincidence` (src/quagmire.c:2473-2488): the sum of
`f_i (f_i - 1)` over the 26 frequencies, divided by `L (L - 1)` (no
alphabet-size factor inside). -/
noncomputable def index_of_coincidence (text : List ℕ) : ℝ :=
  (∑ i ∈ Finset.range 26,
      (text.count i : ℝ) * ((text.count i : ℝ) - 1)) /
    ((text.length : ℝ) * ((text.length : ℝ) - 1))

/-- Embedding of `state_score` (src/quagmire.c:1618-1677): decrypt, take the
weighted sum of the n-gram, crib, IoC and entropy scores, divide by the sum of
the weights and then by the normaliser 3.41. -/
noncomputable def state_score (cipher : List ℕ) (cribs : List (ℕ × ℕ))
    (ptKey ctKey cycle : List ℕ) (variant beaufort : Bool) (g : ℕ → ℝ)
    (n : ℕ) (wn wc wi we : ℝ) : ℝ :=
  (wn * ngram_score (decrypted_text cipher ptKey ctKey cycle variant beaufort) g n
    + wc * crib_score (decrypted_text cipher ptKey ctKey cycle variant beaufort) cribs
    + wi * Real.exp (-(26 *
        index_of_coincidence (decrypted_text cipher ptKey ctKey cycle variant beaufort)
        - 1.742) ^ 2)
    + we * Real.exp
        (-(entropy (decrypted_text cipher ptKey ctKey cycle variant beaufort) - 2.85) ^ 2))
    / (wn + wc + wi + we) / 3.41

/-- The wording of the spec packs an n-gram (a slice of the text) little-endian
in base 26; this is the claimed index of a slice. -/
def ngram_encode (l : List ℕ) : ℕ := l.foldr (fun d a => d + 26 * a) 0

/-- The n-gram score as the claim words it: `26^n` times the sum of `g` over
ALL `L - n + 1` n-grams of the text, divided by `L - n`. -/
noncomputable def claimed_ngram_score (D : List ℕ) (g : ℕ → ℝ) (n : ℕ) : ℝ :=
  26 ^ n * (∑ i ∈ Finset.range (D.length - n + 1),
      g (ngram_encode ((D.drop i).take n))) /
    ((D.length : ℝ) - (n : ℝ))

/-- The composite score as the claim words it: same weighted combination, but
with `claimed_ngram_score` in place of the n-gram sum of the code. -/
noncomputable def claimed_state_score (cipher : List ℕ) (cribs : List (ℕ × ℕ))
    (ptKey ctKey cycle : List ℕ) (variant beaufort : Bool) (g : ℕ → ℝ)
    (n : ℕ) (wn wc wi we : ℝ) : ℝ :=
  (wn * claimed_ngram_score (decrypted_text cipher ptKey ctKey cycle variant beaufort) g n
    + wc * crib_score (decrypted_text cipher ptKey ctKey cycle variant beaufort) cribs
    + wi * Real.exp (-(26 *
        index_of_coincidence (decrypted_text cipher ptKey ctKey cycle variant beaufort)
        - 1.742) ^ 2)
    + we * Real.exp
        (-(entropy (decrypted_text cipher ptKey ctKey cycle variant beaufort) - 2.85) ^ 2))
    / (wn + wc + wi + we) / 3.41

theorem ngram_encode_cons (d : ℕ) (l : List ℕ) :
    ngram_encode (d :: l) = d + 26 * ngram_encode l := rfl

theorem ngram_encode_eq_sum (l : List ℕ) :
    ngram_encode l = ∑ j ∈ Finset.range l.length, l.getD j 0 * 26 ^ j := by
  induction l with
  | nil => simp [ngram_encode]
  | cons d l ih =>
    rw [ngram_encode_cons, ih, List.length_cons, Finset.sum_range_succ']
    simp only [List.getD_cons_succ, List.getD_cons_zero, pow_zero, mul_one,
      pow_succ, Finset.mul_sum]
    rw [add_comm]
    congr 1
    refine Finset.sum_congr rfl (fun j _ => by ring)

theorem ngram_index_at_eq_encode {D : List ℕ} {i n : ℕ}
    (h : i + n ≤ D.length) :
    ngram_index_at D i n = ngram_encode ((D.drop i).take n) := by
  have hlen : ((D.drop i).take n).length = n := by
    simp only [List.length_take, List.length_drop]
    omega
  rw [ngram_encode_eq_sum, hlen]
  unfold ngram_index_at
  refine Finset.sum_congr rfl (fun j hj => ?_)
  rw [Finset.mem_range] at hj
  rw [getD_take_of_lt hj (by simp only [List.length_drop]; omega),
    getD_drop_add (by omega)]

theorem ngram_score_eq_slices (D : List ℕ) (g : ℕ → ℝ) (n : ℕ) :
    ngram_score D g n =
      26 ^ n * (∑ i ∈ Finset.range (D.length - n),
        g (ngram_encode ((D.drop i).take n))) /
        ((D.length : ℝ) - (n : ℝ)) := by
  have hs : ∑ i ∈ Finset.range (D.length - n), g (ngram_index_at D i n)
      = ∑ i ∈ Finset.range (D.length - n),
          g (ngram_encode ((D.drop i).take n)) :=
    Finset.sum_congr rfl (fun i hi => by
      rw [Finset.mem_range] at hi
      rw [ngram_index_at_eq_encode (by omega)])
  unfold ngram_score
  rw [hs]

/-- C3 (amended): the composite score equals
`(wn Sngram + wc Scrib + wi Sioc + we Sentropy) / (wn+wc+wi+we) / 3.41`
with `Scrib` the fraction of matched cribs (0 when there are none) and
`Sngram` equal to `26^n` times the sum of the log-frequencies of n-grams of
the decrypted text divided by `L - n` — but the sum ranges over only the
FIRST `L - n` of the `L - n + 1` n-grams of the text: the loop bound
`i < cipher_len - ngram_size` omits the final n-gram. -/
theorem C3_state_score_formula (cipher : List ℕ) (cribs : List (ℕ × ℕ))
    (ptKey ctKey cycle : List ℕ) (variant beaufort : Bool) (g : ℕ → ℝ)
    (n : ℕ) (wn wc wi we : ℝ) :
    state_score cipher cribs ptKey ctKey cycle variant beaufort g n wn wc wi we =
      let D := decrypted_text cipher ptKey ctKey cycle variant beaufort
      (wn * (26 ^ n * (∑ i ∈ Finset.range (D.length - n),
              g (ngram_encode ((D.drop i).take n))) /
            ((D.length : ℝ) - (n : ℝ)))
        + wc * (if cribs.isEmpty then 0
            else ((cribs.countP (fun c => D.getD c.1 0 == c.2) : ℕ) : ℝ) /
              (cribs.length : ℝ))
        + wi * Real.exp (-(26 * index_of_coincidence D - 1.742) ^ 2)
        + we * Real.exp (-(entropy D - 2.85) ^ 2))
        / (wn + wc + wi + we) / 3.41 := by
  simp only [state_score, crib_score]
  rw [ngram_score_eq_slices]

/-- C3 counterexample to the original claim: on the two-letter text `AB` with
identity keys, unigram scoring (`n = 1`), table `g(i) = i` and weights
`(1, 0, 0, 0)`, the score of the code is `0` but the claimed formula (summing
over all `L - n + 1` n-grams) gives `26 / 3.41`. -/
theorem C3_state_score_counterexample :
    state_score [0, 1] [] (List.range 26) (List.range 26) [0] false false
        (fun x => (x : ℝ)) 1 1 0 0 0 ≠
      claimed_state_score [0, 1] [] (List.range 26) (List.range 26) [0] false false
        (fun x => (x : ℝ)) 1 1 0 0 0 := by
  have hD : decrypted_text [0, 1] (List.range 26) (List.range 26) [0] false false
      = [0, 1] := by decide
  have h1 : ngram_index_at [0, 1] 0 1 = 0 := by decide
  have h2 : ngram_encode [0] = 0 := by decide
  have h3 : ngram_encode [1] = 1 := by decide
  unfold state_score claimed_state_score ngram_score claimed_ngram_score crib_score
  rw [hD]
  norm_num [Finset.sum_range_succ, h1, h2, h3]

/-! ### C5: cycleword-length estimation
(`estimate_cycleword_lengths`, src/quagmire.c:2268-2361) -/

/-- The Caesar column extracted by the inner `while` of `mean_ioc`
(src/quagmire.c:2374-2380): the text symbols at positions `p·i + k`,
i.e. at the positions congruent to `k` mod `p`, in increasing order. -/
def column (text : List ℕ) (p k : ℕ) : List ℕ :=
  ((List.range text.length).filter (fun i => i % p == k)).map
    (fun i => text.getD i 0)

/-- Embedding of `mean_ioc` (src/quagmire.c:2367-2384): the mean of the
column IoCs over the `p` columns. -/
noncomputable def mean_ioc (text : List ℕ) (p : ℕ) : ℝ :=
  (∑ k ∈ Finset.range p, index_of_coincidence (column text p k)) / (p : ℝ)

/-- Embedding of `vec_mean` (src/quagmire.c:2390-2399). -/
noncomputable def vec_mean (v : ℕ → ℝ) (m : ℕ) : ℝ :=
  (∑ i ∈ Finset.range m, v i) / (m : ℝ)

/-- Embedding of `vec_stddev` (src/quagmire.c:2403-2414): the population
standard deviation. -/
noncomputable def vec_stddev (v : ℕ → ℝ) (m : ℕ) : ℝ :=
  Real.sqrt ((∑ i ∈ Finset.range m, (v i - vec_mean v m) ^ 2) / (m : ℝ))

/-- The z-score `mu_ioc_normalised[j]` of src/quagmire.c:2298-2300: the mean
IoC of period `j + 1`, normalised by the mean and standard deviation of the
`m` mean IoCs. -/
noncomputable def mu_ioc_normalised (text : List ℕ) (m j : ℕ) : ℝ :=
  (mean_ioc text (j + 1) - vec_mean (fun i => mean_ioc text (i + 1)) m) /
    vec_stddev (fun i => mean_ioc text (i + 1)) m

open scoped Classical in
/-- One pass of the inner `j` loop of the selection code
(src/quagmire.c:2311-2318), from threshold flag `false`, running maximum
`max_ioc = 0` and no selection.  `z j` is the z-score, `a j` the raw mean
IoC, `t` the z-score threshold, `th` the IoC threshold and `c` the
`current_ioc` upper bound from the previous round; the C condition
`z[j] > t && a[j] > th && z[j] > max && z[j] < c` is written with `<`. -/
noncomputable def select_inner (z a : ℕ → ℝ) (t th c : ℝ) (m : ℕ) :
    Bool × ℝ × Option ℕ :=
  (List.range m).foldl
    (fun s j =>
      if t < z j ∧ th < a j ∧ s.2.1 < z j ∧ z j < c then (true, z j, some (j + 1))
      else s)
    (false, 0, none)

/-- The mutable state of the outer selection loop: the count
`n_cycleword_lengths`, the bound `current_ioc`, and the output array
`cycleword_lengths` (`none` = never written). -/
structure SelState where
  n : ℕ
  c : ℝ
  out : ℕ → Option ℕ

/-- One round `i` of the outer selection loop (src/quagmire.c:2308-2322):
run the inner loop from the current `current_ioc`; `cycleword_lengths[i]`
receives the selected period if the threshold flag was raised, `current_ioc`
becomes the inner running maximum (0 on a failed round), and the count is
bumped on success. -/
noncomputable def select_round (z a : ℕ → ℝ) (t th : ℝ) (m : ℕ)
    (s : SelState) (i : ℕ) : SelState :=
  let r := select_inner z a t th s.c m
  { n := if r.1 = true then s.n + 1 else s.n
    c := r.2.1
    out := fun k => if k = i then (if r.1 = true then r.2.2 else s.out k)
      else s.out k }

/-- Embedding of the selection phase of `estimate_cycleword_lengths`
(src/quagmire.c:2286-2323): compute the `m` z-scores, run `m` rounds of the
selection loop starting from `current_ioc = 10^6`, and return the first
`n_cycleword_lengths` entries of the output array. -/
noncomputable def estimate_cycleword_lengths (text : List ℕ) (m : ℕ)
    (t th : ℝ) : List ℕ :=
  let z := fun j => mu_ioc_normalised text m j
  let a := fun j => mean_ioc text (j + 1)
  let s := (List.range m).foldl (select_round z a t th m)
    ⟨0, 1000000, fun k => none⟩
  (List.range s.n).map (fun i => (s.out i).getD 0)

/-- Characterisation of the inner loop: either no `j < m` qualifies (z-score
above `t`, mean IoC above `th`, z-score strictly positive and strictly below
`c`) and the state is unchanged, or the loop selects a qualifying period of
maximal z-score. -/
theorem select_inner_spec (z a : ℕ → ℝ) (t th c : ℝ) (m : ℕ) :
    (select_inner z a t th c m = (false, 0, none) ∧
      ∀ j < m, ¬ (t < z j ∧ th < a j ∧ 0 < z j ∧ z j < c)) ∨
    (∃ j, j < m ∧ select_inner z a t th c m = (true, z j, some (j + 1)) ∧
      (t < z j ∧ th < a j ∧ 0 < z j ∧ z j < c) ∧
      ∀ j' < m, (t < z j' ∧ th < a j' ∧ 0 < z j' ∧ z j' < c) → z j' ≤ z j) := by
  classical
  induction m with
  | zero =>
    left
    constructor
    · rfl
    · omega
  | succ m ih =>
    have hstep : select_inner z a t th c (m + 1) =
        if t < z m ∧ th < a m ∧ (select_inner z a t th c m).2.1 < z m ∧ z m < c
        then (true, z m, some (m + 1)) else select_inner z a t th c m := by
      unfold select_inner
      rw [List.range_succ, List.foldl_append, List.foldl_cons, List.foldl_nil]
    rcases ih with ⟨heq, hnone⟩ | ⟨j, hjm, heq, hQ, hmax⟩
    · rw [heq] at hstep
      by_cases hm : t < z m ∧ th < a m ∧ 0 < z m ∧ z m < c
      · right
        refine ⟨m, Nat.lt_succ_self m, ?_, hm, ?_⟩
        · rw [hstep, if_pos ⟨hm.1, hm.2.1, hm.2.2.1, hm.2.2.2⟩]
        · intro j' hj' hQ'
          rcases Nat.lt_succ_iff_lt_or_eq.mp hj' with h | h
          · exact absurd hQ' (hnone j' h)
          · subst h; exact le_refl _
      · left
        refine ⟨?_, ?_⟩
        · rw [hstep, if_neg ?_]
          intro hc
          exact hm ⟨hc.1, hc.2.1, hc.2.2.1, hc.2.2.2⟩
        · intro j' hj'
          rcases Nat.lt_succ_iff_lt_or_eq.mp hj' with h | h
          · exact hnone j' h
          · subst h; exact hm
    · rw [heq] at hstep
      by_cases hm : t < z m ∧ th < a m ∧ z j < z m ∧ z m < c
      · right
        have h0m : 0 < z m := lt_trans hQ.2.2.1 hm.2.2.1
        refine ⟨m, Nat.lt_succ_self m, ?_, ⟨hm.1, hm.2.1, h0m, hm.2.2.2⟩, ?_⟩
        · rw [hstep, if_pos ⟨hm.1, hm.2.1, hm.2.2.1, hm.2.2.2⟩]
        · intro j' hj' hQ'
          rcases Nat.lt_succ_iff_lt_or_eq.mp hj' with h | h
          · exact le_trans (hmax j' h hQ') (le_of_lt hm.2.2.1)
          · subst h; exact le_refl _
      · right
        refine ⟨j, lt_trans hjm (Nat.lt_succ_self m), ?_, hQ, ?_⟩
        · rw [hstep, if_neg ?_]
          intro hc
          exact hm ⟨hc.1, hc.2.1, hc.2.2.1, hc.2.2.2⟩
        · intro j' hj' hQ'
          rcases Nat.lt_succ_iff_lt_or_eq.mp hj' with h | h
          · exact hmax j' h hQ'
          · subst h
            by_contra hlt
            push_neg at hlt
            exact hm ⟨hQ'.1, hQ'.2.1, hlt, hQ'.2.2.2⟩

open scoped Classical in
/-- Invariant of the outer selection loop after `i` rounds: `current_ioc` is
at most the initial `10^6`; the count is at most `i` and either equals `i` or
`current_ioc` has collapsed to 0 (a round failed); the first `n` output slots
hold qualifying periods; outputs are strictly descending in z-score; a
qualifying period is already output exactly when its z-score is at least
`current_ioc`; and the count plus the number of qualifying periods still
below `current_ioc` is the total number of qualifying periods. -/
def SelInv (z a : ℕ → ℝ) (t th : ℝ) (m i : ℕ) (s : SelState) : Prop :=
  s.c ≤ 1000000 ∧
  s.n ≤ i ∧
  (s.n = i ∨ s.c = 0) ∧
  (∀ k, k < s.n → ∃ j, j < m ∧ (t < z j ∧ th < a j ∧ 0 < z j) ∧
    z j < 1000000 ∧ s.out k = some (j + 1)) ∧
  (∀ k₁ k₂ j₁ j₂, k₁ < k₂ → k₂ < s.n → s.out k₁ = some (j₁ + 1) →
    s.out k₂ = some (j₂ + 1) → z j₂ < z j₁) ∧
  (∀ j, j < m → (t < z j ∧ th < a j ∧ 0 < z j) → z j < 1000000 →
    (s.c ≤ z j ↔ ∃ k, k < s.n ∧ s.out k = some (j + 1))) ∧
  s.n + ((Finset.range m).filter
      (fun j => (t < z j ∧ th < a j ∧ 0 < z j) ∧ z j < s.c)).card =
    ((Finset.range m).filter
      (fun j => (t < z j ∧ th < a j ∧ 0 < z j) ∧ z j < 1000000)).card

theorem selInv_init (z a : ℕ → ℝ) (t th : ℝ) (m : ℕ) :
    SelInv z a t th m 0 ⟨0, 1000000, fun k => none⟩ := by
  classical
  unfold SelInv
  dsimp only
  refine ⟨le_refl _, le_refl _, Or.inl rfl, ?_, ?_, ?_, ?_⟩
  · intro k hk; omega
  · intro k₁ k₂ j₁ j₂ h12 hk2 _ _; omega
  · intro j hj hQ hlt
    constructor
    · intro hge
      exact absurd hlt (not_lt.mpr hge)
    · rintro ⟨k, hk, _⟩
      omega
  · omega

theorem selInv_step (z a : ℕ → ℝ) (t th : ℝ) (m : ℕ)
    (hinj : ∀ i < m, ∀ j < m, z i = z j → i = j)
    (i : ℕ) (s : SelState) (h : SelInv z a t th m i s) :
    SelInv z a t th m (i + 1) (select_round z a t th m s i) := by
  classical
  obtain ⟨hc, hn, hni, hout, hdesc, hfr, hcard⟩ := h
  rcases select_inner_spec z a t th s.c m with ⟨heq, hnone⟩ | ⟨j₀, hj₀m, heq, hQ₀, hmax⟩
  · have hs' : select_round z a t th m s i = ⟨s.n, 0, s.out⟩ := by
      simp [select_round, heq]
    rw [hs']
    unfold SelInv
    dsimp only
    have hPzero : ((Finset.range m).filter
        (fun j => (t < z j ∧ th < a j ∧ 0 < z j) ∧ z j < s.c)).card = 0 := by
      rw [Finset.card_eq_zero, Finset.filter_eq_empty_iff]
      intro j hj hq
      rw [Finset.mem_range] at hj
      exact hnone j hj ⟨hq.1.1, hq.1.2.1, hq.1.2.2, hq.2⟩
    refine ⟨by norm_num, by omega, Or.inr rfl, hout, hdesc, ?_, ?_⟩
    · intro j hj hQ hlt
      constructor
      · intro _
        by_cases hzc : s.c ≤ z j
        · exact (hfr j hj hQ hlt).mp hzc
        · push_neg at hzc
          exact absurd ⟨hQ.1, hQ.2.1, hQ.2.2, hzc⟩ (hnone j hj)
      · intro _
        exact le_of_lt hQ.2.2
    · have h0 : ((Finset.range m).filter
          (fun j => (t < z j ∧ th < a j ∧ 0 < z j) ∧ z j < (0 : ℝ))).card = 0 := by
        rw [Finset.card_eq_zero, Finset.filter_eq_empty_iff]
        intro j _ hq
        exact absurd (lt_trans hq.1.2.2 hq.2) (lt_irrefl 0)
      omega
  · have hs' : select_round z a t th m s i =
        ⟨s.n + 1, z j₀, fun k => if k = i then some (j₀ + 1) else s.out k⟩ := by
      simp [select_round, heq]
    have hzlt : z j₀ < s.c := hQ₀.2.2.2
    have hsn : s.n = i := by
      rcases hni with h' | h'
      · exact h'
      · rw [h'] at hzlt
        exact absurd (lt_trans hQ₀.2.2.1 hzlt) (lt_irrefl 0)
    rw [hs']
    unfold SelInv
    dsimp only
    refine ⟨le_trans (le_of_lt hzlt) hc, by omega, Or.inl (by omega), ?_, ?_, ?_, ?_⟩
    · intro k hk
      by_cases hki : k = i
      · refine ⟨j₀, hj₀m, ⟨hQ₀.1, hQ₀.2.1, hQ₀.2.2.1⟩, lt_of_lt_of_le hzlt hc, ?_⟩
        rw [if_pos hki]
      · have hkn : k < s.n := by omega
        obtain ⟨j, hj, hQ, hlt, he⟩ := hout k hkn
        refine ⟨j, hj, hQ, hlt, ?_⟩
        rw [if_neg hki]
        exact he
    · intro k₁ k₂ j₁ j₂ h12 hk2 he1 he2
      by_cases hk2i : k₂ = i
      · rw [if_pos hk2i] at he2
        have hj₂ : j₂ = j₀ := by
          have := Option.some.inj he2
          omega
        have hk1 : k₁ < s.n := by omega
        have hk1i : ¬ k₁ = i := by omega
        rw [if_neg hk1i] at he1
        obtain ⟨j, hj, hQ, hlt, he⟩ := hout k₁ hk1
        have hjj : j = j₁ := by
          rw [he1] at he
          have := Option.some.inj he
          omega
        subst hjj
        have hge : s.c ≤ z j := (hfr j hj hQ hlt).mpr ⟨k₁, hk1, he1⟩
        rw [hj₂]
        exact lt_of_lt_of_le hzlt hge
      · rw [if_neg hk2i] at he2
        have hk2n : k₂ < s.n := by omega
        have hk1i : ¬ k₁ = i := by omega
        rw [if_neg hk1i] at he1
        exact hdesc k₁ k₂ j₁ j₂ h12 hk2n he1 he2
    · intro j hj hQ hlt
      constructor
      · intro hge
        by_cases hzz : z j = z j₀
        · have hjj : j = j₀ := hinj j hj j₀ hj₀m hzz
          subst hjj
          exact ⟨i, by omega, by rw [if_pos rfl]⟩
        · have hgt : z j₀ < z j := lt_of_le_of_ne hge (fun he => hzz he.symm)
          have hsc : s.c ≤ z j := by
            by_contra hlt2
            push_neg at hlt2
            have := hmax j hj ⟨hQ.1, hQ.2.1, hQ.2.2, hlt2⟩
            exact absurd hgt (not_lt.mpr this)
          obtain ⟨k, hk, he⟩ := (hfr j hj hQ hlt).mp hsc
          have hki : ¬ k = i := by omega
          refine ⟨k, by omega, ?_⟩
          rw [if_neg hki]
          exact he
      · rintro ⟨k, hk, he⟩
        by_cases hki : k = i
        · rw [if_pos hki] at he
          have hjj : j = j₀ := by
            have := Option.some.inj he
            omega
          rw [hjj]
        · rw [if_neg hki] at he
          have hkn : k < s.n := by omega
          have hsc : s.c ≤ z j := (hfr j hj hQ hlt).mpr ⟨k, hkn, he⟩
          exact le_of_lt (lt_of_lt_of_le hzlt hsc)
    · have hmem : j₀ ∈ (Finset.range m).filter
          (fun j => (t < z j ∧ th < a j ∧ 0 < z j) ∧ z j < s.c) := by
        rw [Finset.mem_filter, Finset.mem_range]
        exact ⟨hj₀m, ⟨hQ₀.1, hQ₀.2.1, hQ₀.2.2.1⟩, hzlt⟩
      have hset : (Finset.range m).filter
          (fun j => (t < z j ∧ th < a j ∧ 0 < z j) ∧ z j < z j₀) =
          ((Finset.range m).filter
            (fun j => (t < z j ∧ th < a j ∧ 0 < z j) ∧ z j < s.c)).erase j₀ := by
        ext j
        simp only [Finset.mem_erase, Finset.mem_filter, Finset.mem_range]
        constructor
        · rintro ⟨hjm, hQj, hzj⟩
          refine ⟨?_, hjm, hQj, lt_trans hzj hzlt⟩
          intro hjeq
          rw [hjeq] at hzj
          exact absurd hzj (lt_irrefl _)
        · rintro ⟨hne, hjm, hQj, hzj⟩
          refine ⟨hjm, hQj, ?_⟩
          have hle : z j ≤ z j₀ := hmax j hjm ⟨hQj.1, hQj.2.1, hQj.2.2, hzj⟩
          refine lt_of_le_of_ne hle (fun hzz => hne (hinj j hjm j₀ hj₀m hzz))
      rw [hset, Finset.card_erase_of_mem hmem]
      have hpos : 0 < ((Finset.range m).filter
          (fun j => (t < z j ∧ th < a j ∧ 0 < z j) ∧ z j < s.c)).card :=
        Finset.card_pos.mpr ⟨j₀, hmem⟩
      omega

theorem selInv_fold (z a : ℕ → ℝ) (t th : ℝ) (m : ℕ)
    (hinj : ∀ i < m, ∀ j < m, z i = z j → i = j) (r : ℕ) :
    SelInv z a t th m r ((List.range r).foldl (select_round z a t th m)
      ⟨0, 1000000, fun k => none⟩) := by
  induction r with
  | zero => exact selInv_init z a t th m
  | succ r ih =>
    rw [List.range_succ, List.foldl_append, List.foldl_cons, List.foldl_nil]
    exact selInv_step z a t th m hinj r _ ih

/-- C5 (amended): assuming the `m` z-scores are pairwise distinct, the
estimator returns the periods `p = j + 1` with `1 ≤ p ≤ m` whose z-score
exceeds `n_sigma_threshold` AND whose mean column IoC exceeds
`ioc_threshold` AND whose z-score is strictly positive (the running maximum
starts at 0) AND strictly below `10^6` (the initial `current_ioc`), sorted by
strictly descending z-score.  The two extra z-score conditions are absent
from the original claim. -/
theorem C5_estimate_cycleword_lengths_spec (text : List ℕ) (m : ℕ) (t th : ℝ)
    (hinj : ∀ i < m, ∀ j < m,
      mu_ioc_normalised text m i = mu_ioc_normalised text m j → i = j) :
    (∀ q, q ∈ estimate_cycleword_lengths text m t th ↔
      ∃ j, j < m ∧ q = j + 1 ∧
        t < mu_ioc_normalised text m j ∧ th < mean_ioc text (j + 1) ∧
        0 < mu_ioc_normalised text m j ∧ mu_ioc_normalised text m j < 1000000) ∧
    List.Pairwise
      (fun q r => mu_ioc_normalised text m (r - 1) < mu_ioc_normalised text m (q - 1))
      (estimate_cycleword_lengths text m t th) := by
  classical
  have hInv := selInv_fold (fun j => mu_ioc_normalised text m j)
    (fun j => mean_ioc text (j + 1)) t th m hinj m
  set S := (List.range m).foldl
    (select_round (fun j => mu_ioc_normalised text m j)
      (fun j => mean_ioc text (j + 1)) t th m) ⟨0, 1000000, fun k => none⟩ with hS
  have hE : estimate_cycleword_lengths text m t th =
      (List.range S.n).map (fun i => (S.out i).getD 0) := by
    simp only [estimate_cycleword_lengths, hS]
  obtain ⟨hc, hn, hni, hout, hdesc, hfr, hcard⟩ := hInv
  simp only [] at hcard
  constructor
  · intro q
    rw [hE]
    constructor
    · intro hq
      rw [List.mem_map] at hq
      obtain ⟨i, hi, hqe⟩ := hq
      rw [List.mem_range] at hi
      obtain ⟨j, hj, hQ, hlt, he⟩ := hout i hi
      refine ⟨j, hj, ?_, hQ.1, hQ.2.1, hQ.2.2, hlt⟩
      rw [← hqe, he]
      rfl
    · rintro ⟨j, hj, hq, h1, h2, h3, h4⟩
      have hex : ∃ k, k < S.n ∧ S.out k = some (j + 1) := by
        by_contra hnex
        have hlt2 : ¬ S.c ≤ mu_ioc_normalised text m j := by
          intro hge
          exact hnex ((hfr j hj ⟨h1, h2, h3⟩ h4).mp hge)
        push_neg at hlt2
        rcases hni with hne | h0
        · have hjm : j ∈ (Finset.range m).filter
              (fun j' => (t < mu_ioc_normalised text m j' ∧
                th < mean_ioc text (j' + 1) ∧ 0 < mu_ioc_normalised text m j') ∧
                mu_ioc_normalised text m j' < S.c) := by
            rw [Finset.mem_filter, Finset.mem_range]
            exact ⟨hj, ⟨h1, h2, h3⟩, hlt2⟩
          have hpos : 0 < ((Finset.range m).filter
              (fun j' => (t < mu_ioc_normalised text m j' ∧
                th < mean_ioc text (j' + 1) ∧ 0 < mu_ioc_normalised text m j') ∧
                mu_ioc_normalised text m j' < S.c)).card :=
            Finset.card_pos.mpr ⟨j, hjm⟩
          have hle : ((Finset.range m).filter
              (fun j' => (t < mu_ioc_normalised text m j' ∧
                th < mean_ioc text (j' + 1) ∧ 0 < mu_ioc_normalised text m j') ∧
                mu_ioc_normalised text m j' < 1000000)).card ≤ m := by
            refine le_trans (Finset.card_filter_le _ _) ?_
            simp
          omega
        · rw [h0] at hlt2
          exact absurd (lt_trans h3 hlt2) (lt_irrefl 0)
      obtain ⟨k, hk, he⟩ := hex
      rw [List.mem_map]
      refine ⟨k, List.mem_range.mpr hk, ?_⟩
      rw [he, hq]
      rfl
  · rw [hE, List.pairwise_iff_getElem]
    intro p q hp hq hpq
    rw [List.length_map, List.length_range] at hp hq
    obtain ⟨j₁, hj₁, hQ₁, hlt₁, he₁⟩ := hout p hp
    obtain ⟨j₂, hj₂, hQ₂, hlt₂, he₂⟩ := hout q hq
    simp only [List.getElem_map, List.getElem_range, he₁, he₂,
      Option.getD_some, Nat.add_sub_cancel]
    exact hdesc p q j₁ j₂ hpq hq he₁ he₂

/-- C5 witness: the amended theorem applied at a concrete instance (`m = 1`,
where the distinctness hypothesis is immediate). -/
theorem C5_estimate_cycleword_lengths_spec_witness :
    (∀ i < 1, ∀ j < 1,
      mu_ioc_normalised [0, 1] 1 i = mu_ioc_normalised [0, 1] 1 j → i = j) ∧
    ((∀ q, q ∈ estimate_cycleword_lengths [0, 1] 1 0 0 ↔
      ∃ j, j < 1 ∧ q = j + 1 ∧
        0 < mu_ioc_normalised [0, 1] 1 j ∧ 0 < mean_ioc [0, 1] (j + 1) ∧
        0 < mu_ioc_normalised [0, 1] 1 j ∧ mu_ioc_normalised [0, 1] 1 j < 1000000) ∧
    List.Pairwise
      (fun q r => mu_ioc_normalised [0, 1] 1 (r - 1) < mu_ioc_normalised [0, 1] 1 (q - 1))
      (estimate_cycleword_lengths [0, 1] 1 0 0)) :=
  have hinj : ∀ i < 1, ∀ j < 1,
      mu_ioc_normalised [0, 1] 1 i = mu_ioc_normalised [0, 1] 1 j → i = j := by
    intro i hi j hj _
    omega
  ⟨hinj, C5_estimate_cycleword_lengths_spec [0, 1] 1 0 0 hinj⟩

/-- C5 counterexample to the original claim: on the text `AABB` with
`max_p = 2`, the z-scores are `+1` (period 1) and `-1` (period 2).  With
`n_sigma_threshold = -10` and `ioc_threshold = -1` BOTH periods satisfy the
claimed acceptance condition (z-score above the threshold and mean IoC above
the IoC threshold), yet the code returns only `[1]`: period 2 is rejected by
the hidden `z > max_ioc` condition, whose running maximum starts at 0. -/
theorem C5_counterexample :
    -10 < mu_ioc_normalised [0, 0, 1, 1] 2 1 ∧
    -1 < mean_ioc [0, 0, 1, 1] 2 ∧
    2 ∉ estimate_cycleword_lengths [0, 0, 1, 1] 2 (-10) (-1) := by
  classical
  have hcol1 : column [0, 0, 1, 1] 1 0 = [0, 0, 1, 1] := by decide
  have hcol20 : column [0, 0, 1, 1] 2 0 = [0, 1] := by decide
  have hcol21 : column [0, 0, 1, 1] 2 1 = [0, 1] := by decide
  have hioc4 : index_of_coincidence [0, 0, 1, 1] = 1 / 3 := by
    unfold index_of_coincidence
    norm_num [Finset.sum_range_succ, List.count_cons, List.count_nil]
  have hioc2 : index_of_coincidence [0, 1] = 0 := by
    unfold index_of_coincidence
    norm_num [Finset.sum_range_succ, List.count_cons, List.count_nil]
  have hm1 : mean_ioc [0, 0, 1, 1] 1 = 1 / 3 := by
    unfold mean_ioc
    rw [Finset.sum_range_one, hcol1, hioc4]
    norm_num
  have hm2 : mean_ioc [0, 0, 1, 1] 2 = 0 := by
    unfold mean_ioc
    rw [Finset.sum_range_succ, Finset.sum_range_one, hcol20, hcol21, hioc2]
    norm_num
  have hvm : vec_mean (fun i => mean_ioc [0, 0, 1, 1] (i + 1)) 2 = 1 / 6 := by
    unfold vec_mean
    rw [Finset.sum_range_succ, Finset.sum_range_one]
    norm_num [hm1, hm2]
  have hvs : vec_stddev (fun i => mean_ioc [0, 0, 1, 1] (i + 1)) 2 = 1 / 6 := by
    unfold vec_stddev
    have harg : (∑ i ∈ Finset.range 2,
        ((fun i => mean_ioc [0, 0, 1, 1] (i + 1)) i -
          vec_mean (fun i => mean_ioc [0, 0, 1, 1] (i + 1)) 2) ^ 2) / ((2 : ℕ) : ℝ)
        = (1 / 6) ^ 2 := by
      rw [Finset.sum_range_succ, Finset.sum_range_one]
      norm_num [hm1, hm2, hvm]
    rw [harg, Real.sqrt_sq (by norm_num : (0 : ℝ) ≤ 1 / 6)]
  have hz0 : mu_ioc_normalised [0, 0, 1, 1] 2 0 = 1 := by
    unfold mu_ioc_normalised
    rw [hvm, hvs]
    norm_num [hm1]
  have hz1 : mu_ioc_normalised [0, 0, 1, 1] 2 1 = -1 := by
    unfold mu_ioc_normalised
    rw [hvm, hvs]
    norm_num [hm2]
  have hsel : estimate_cycleword_lengths [0, 0, 1, 1] 2 (-10) (-1) = [1] := by
    unfold estimate_cycleword_lengths select_round select_inner
    rw [show List.range 2 = [0, 1] from rfl]
    simp only [List.foldl_cons, List.foldl_nil]
    norm_num [hz0, hz1, hm1, hm2]
    decide
  refine ⟨?_, ?_, ?_⟩
  · rw [hz1]
    norm_num
  · rw [hm2]
    norm_num
  · rw [hsel]
    decide

/-! ### C7, C8: the shotgun hill climber
(`quagmire_shotgun_hill_climber`, src/quagmire.c:604-1407)

Randomness is supplied by oracle streams indexed by call counters carried in
the state; C doubles are real numbers. -/

/-- The randomness consumed by the climber: `fr n` is the value of the `n`-th
`frand()` call, `ir n` the value of the `n`-th `rand()` call (used through
`rand_int`), and `kw n` the keyword array produced by the `n`-th
`random_keyword` call (whose unbounded rejection loop is abstracted as a
stream of outcomes). -/
structure Oracle where
  fr : ℕ → ℝ
  ir : ℕ → ℕ
  kw : ℕ → List ℕ

/-- Embedding of `rand_int` (src/quagmire.c:2557), `min + rand() % (max - min)`,
on the `n`-th `rand()` draw. -/
def rand_int (o : Oracle) (n lo hi : ℕ) : ℕ := lo + o.ir n % (hi - lo)

/-- The climber state: current and best keyword/cycleword/score, the
`perturbate_keyword_p` flag, and the oracle counters.  The best arrays are
uninitialised (`[]`) until the first best-score update. -/
structure HCState where
  curPt : List ℕ
  curCt : List ℕ
  curCy : List ℕ
  curScore : ℝ
  bestPt : List ℕ
  bestCt : List ℕ
  bestCy : List ℕ
  bestScore : ℝ
  perturbKw : Bool
  frc : ℕ
  irc : ℕ
  kwc : ℕ

/-- The climber inputs that stay fixed across iterations. -/
structure HCParams where
  cipher : List ℕ
  cribs : List (ℕ × ℕ)
  cycleword_len : ℕ
  plaintext_keyword_len : ℕ
  ciphertext_keyword_len : ℕ
  g : ℕ → ℝ
  n : ℕ
  backtracking_probability : ℝ
  keyword_permutation_probability : ℝ
  slip_probability : ℝ
  wn : ℝ
  wc : ℝ
  wi : ℝ
  we : ℝ
  variant : Bool
  beaufort : Bool

/-- The score of a candidate, as the climber computes it via `state_score`. -/
noncomputable def hc_score (p : HCParams) (pt ct cy : List ℕ) : ℝ :=
  state_score p.cipher p.cribs pt ct cy p.variant p.beaufort p.g p.n
    p.wn p.wc p.wi p.we

/-- Embedding of `perturbate_cycleword` (src/quagmire.c:1893): one random
position receives one random symbol; two `rand()` draws. -/
def perturbate_cycleword (o : Oracle) (irc : ℕ) (s : List ℕ) (len : ℕ) :
    List ℕ :=
  s.set (rand_int o irc 0 len) (rand_int o (irc + 1) 0 26)

open scoped Classical in
/-- Embedding of `perturbate_keyword` (src/quagmire.c:1904-1966): one
`frand()` chooses the mode (in-keyword swap with probability 0.2, else a
move across the keyword boundary with sorted reinsertion), then two `rand()`
draws pick the positions. -/
noncomputable def perturbate_keyword (o : Oracle) (frc irc : ℕ)
    (s : List ℕ) (keyword_len : ℕ) : List ℕ :=
  if o.fr frc < 0.2 then
    perturbate_keyword_swap s (rand_int o irc 0 keyword_len)
      (rand_int o (irc + 1) 0 keyword_len)
  else
    perturbate_keyword_block s keyword_len (rand_int o irc 0 keyword_len)
      (rand_int o (irc + 1) keyword_len 26)

/-- Embedding of `random_cycleword` (src/quagmire.c:2021): `len` random
symbols, one `rand()` draw each. -/
def random_cycleword (o : Oracle) (irc len : ℕ) : List ℕ :=
  (List.range len).map (fun i => rand_int o (irc + i) 0 26)

open scoped Classical in
/-- The move condition of src/quagmire.c:978:
`cipher_type != BEAUFORT && (perturbate_keyword_p ||
cipher_type == VIGENERE || frand() < keyword_permutation_probability)`,
with the coin read from the `frand` slot the short-circuit would consume. -/
noncomputable def hc_keyword_move_p (p : HCParams) (cipher_type : ℕ)
    (o : Oracle) (s : HCState) : Bool :=
  decide (cipher_type ≠ BEAUFORT) &&
    (s.perturbKw || decide (cipher_type = VIGENERE) ||
      decide (o.fr s.frc < p.keyword_permutation_probability))

/-- The `frand` counter after the move condition: the coin is consumed only
when the short-circuit reaches it. -/
def hc_move_frc (cipher_type : ℕ) (s : HCState) : ℕ :=
  if cipher_type = BEAUFORT then s.frc
  else if s.perturbKw = true ∨ cipher_type = VIGENERE then s.frc
  else s.frc + 1

/-- The local (perturbed) state built by one iteration. -/
structure HCLocal where
  pt : List ℕ
  ct : List ℕ
  cy : List ℕ
  frc : ℕ
  irc : ℕ

open scoped Classical in
/-- The perturbation step of one iteration (src/quagmire.c:974-1006): copy
the current state and perturb the keyword (per cipher type; Quagmire IV
spends one extra coin choosing which keyword) or the cycleword. -/
noncomputable def hc_perturb (p : HCParams) (cipher_type : ℕ) (o : Oracle)
    (s : HCState) : HCLocal :=
  if hc_keyword_move_p p cipher_type o s = true then
    let frc := hc_move_frc cipher_type s
    if cipher_type = VIGENERE then
      let pt := perturbate_keyword o frc s.irc s.curPt p.plaintext_keyword_len
      ⟨pt, pt, pt, frc + 1, s.irc + 2⟩
    else if cipher_type = QUAGMIRE_1 then
      ⟨perturbate_keyword o frc s.irc s.curPt p.plaintext_keyword_len,
        s.curCt, s.curCy, frc + 1, s.irc + 2⟩
    else if cipher_type = QUAGMIRE_2 then
      ⟨s.curPt, perturbate_keyword o frc s.irc s.curCt p.ciphertext_keyword_len,
        s.curCy, frc + 1, s.irc + 2⟩
    else if cipher_type = QUAGMIRE_3 then
      let pt := perturbate_keyword o frc s.irc s.curPt p.plaintext_keyword_len
      ⟨pt, pt, s.curCy, frc + 1, s.irc + 2⟩
    else if cipher_type = QUAGMIRE_4 then
      if o.fr frc < 0.5 then
        ⟨perturbate_keyword o (frc + 1) s.irc s.curPt p.plaintext_keyword_len,
          s.curCt, s.curCy, frc + 2, s.irc + 2⟩
      else
        ⟨s.curPt, perturbate_keyword o (frc + 1) s.irc s.curCt p.ciphertext_keyword_len,
          s.curCy, frc + 2, s.irc + 2⟩
    else
      ⟨s.curPt, s.curCt, s.curCy, frc, s.irc⟩
  else
    ⟨s.curPt, s.curCt, perturbate_cycleword o s.irc s.curCy p.cycleword_len,
      hc_move_frc cipher_type s, s.irc + 2⟩

open scoped Classical in
/-- One iteration of the inner loop (src/quagmire.c:969-1341): perturb;
for the Quagmire types run `constrain_cycleword` on the local state, which
also rewrites the `perturbate_keyword_p` flag to the contradiction result;
score; accept on improvement, else on a slip coin; update the best state on
a new record score. -/
noncomputable def hc_iteration (p : HCParams) (cipher_type : ℕ) (o : Oracle)
    (s : HCState) : HCState :=
  let l := hc_perturb p cipher_type o s
  let cres :=
    if cipher_type ≠ VIGENERE ∧ cipher_type ≠ BEAUFORT then
      constrain_cycleword p.cipher p.cribs l.pt l.ct l.cy p.cycleword_len
        p.variant
    else (s.perturbKw, l.cy)
  let localScore := hc_score p l.pt l.ct cres.2
  let acc : Bool × ℕ :=
    if localScore > s.curScore then (true, l.frc)
    else if o.fr l.frc < p.slip_probability then (true, l.frc + 1)
    else (false, l.frc + 1)
  let cur : List ℕ × List ℕ × List ℕ × ℝ :=
    if acc.1 = true then (l.pt, l.ct, cres.2, localScore)
    else (s.curPt, s.curCt, s.curCy, s.curScore)
  if cur.2.2.2 > s.bestScore then
    ⟨cur.1, cur.2.1, cur.2.2.1, cur.2.2.2,
      cur.1, cur.2.1, cur.2.2.1, cur.2.2.2,
      cres.1, acc.2, l.irc, s.kwc⟩
  else
    ⟨cur.1, cur.2.1, cur.2.2.1, cur.2.2.2,
      s.bestPt, s.bestCt, s.bestCy, s.bestScore,
      cres.1, acc.2, l.irc, s.kwc⟩

/-- The fresh random initialisation of a restart (the `switch` of
src/quagmire.c:650-685) followed by the initial score. -/
noncomputable def hc_fresh_init (p : HCParams) (cipher_type : ℕ) (o : Oracle)
    (s : HCState) : HCState :=
  if cipher_type = VIGENERE then
    let pt := o.kw s.kwc
    { s with
      curPt := pt
      curCt := pt
      curCy := pt
      curScore := hc_score p pt pt pt
      kwc := s.kwc + 1 }
  else if cipher_type = QUAGMIRE_1 then
    let pt := o.kw s.kwc
    let cy := random_cycleword o s.irc p.cycleword_len
    { s with
      curPt := pt
      curCt := List.range 26
      curCy := cy
      curScore := hc_score p pt (List.range 26) cy
      kwc := s.kwc + 1
      irc := s.irc + p.cycleword_len }
  else if cipher_type = QUAGMIRE_2 then
    let ct := o.kw s.kwc
    let cy := random_cycleword o s.irc p.cycleword_len
    { s with
      curPt := List.range 26
      curCt := ct
      curCy := cy
      curScore := hc_score p (List.range 26) ct cy
      kwc := s.kwc + 1
      irc := s.irc + p.cycleword_len }
  else if cipher_type = QUAGMIRE_3 then
    let pt := o.kw s.kwc
    let cy := random_cycleword o s.irc p.cycleword_len
    { s with
      curPt := pt
      curCt := pt
      curCy := cy
      curScore := hc_score p pt pt cy
      kwc := s.kwc + 1
      irc := s.irc + p.cycleword_len }
  else if cipher_type = QUAGMIRE_4 then
    let pt := o.kw s.kwc
    let ct := o.kw (s.kwc + 1)
    let cy := random_cycleword o s.irc p.cycleword_len
    { s with
      curPt := pt
      curCt := ct
      curCy := cy
      curScore := hc_score p pt ct cy
      kwc := s.kwc + 2
      irc := s.irc + p.cycleword_len }
  else if cipher_type = BEAUFORT then
    let cy := random_cycleword o s.irc p.cycleword_len
    { s with
      curPt := List.range 26
      curCt := List.range 26
      curCy := cy
      curScore := hc_score p (List.range 26) (List.range 26) cy
      irc := s.irc + p.cycleword_len }
  else
    { s with curScore := hc_score p s.curPt s.curCt s.curCy }

open scoped Classical in
/-- The entry of one restart (src/quagmire.c:640-695): with a recorded best
score, backtrack to the best state with probability
`backtracking_probability` (the coin is consumed only when
`best_score > 0`); otherwise draw a fresh random state. -/
noncomputable def hc_restart_entry (p : HCParams) (cipher_type : ℕ)
    (o : Oracle) (s : HCState) : HCState :=
  if 0 < s.bestScore then
    if o.fr s.frc < p.backtracking_probability then
      { s with
        curPt := s.bestPt
        curCt := s.bestCt
        curCy := s.bestCy
        curScore := s.bestScore
        frc := s.frc + 1 }
    else hc_fresh_init p cipher_type o { s with frc := s.frc + 1 }
  else hc_fresh_init p cipher_type o s

/-- The state at the top of the iteration loop of a restart: the entry state
with `perturbate_keyword_p = true` (src/quagmire.c:967 runs on EVERY restart,
fresh or backtracked). -/
noncomputable def hc_restart_start (p : HCParams) (cipher_type : ℕ)
    (o : Oracle) (s : HCState) : HCState :=
  { hc_restart_entry p cipher_type o s with perturbKw := true }

/-- The states visited by `nIter` iterations from `s`, including `s`. -/
noncomputable def hc_iter_trace (p : HCParams) (cipher_type : ℕ)
    (o : Oracle) : ℕ → HCState → List HCState
  | 0, s => [s]
  | nIter + 1, s =>
    s :: hc_iter_trace p cipher_type o nIter (hc_iteration p cipher_type o s)

/-- The state after `nIter` iterations from `s`. -/
noncomputable def hc_iter_final (p : HCParams) (cipher_type : ℕ)
    (o : Oracle) : ℕ → HCState → HCState
  | 0, s => s
  | nIter + 1, s =>
    hc_iter_final p cipher_type o nIter (hc_iteration p cipher_type o s)

/-- All states visited inside `r` restarts of `nIter` iterations each,
starting from `s`: for each restart, the state after the restart entry and
after each iteration. -/
noncomputable def hc_restart_traces (p : HCParams) (cipher_type : ℕ)
    (o : Oracle) (nIter : ℕ) : ℕ → HCState → List HCState
  | 0, _ => []
  | r + 1, s =>
    hc_iter_trace p cipher_type o nIter (hc_restart_start p cipher_type o s) ++
      hc_restart_traces p cipher_type o nIter r
        (hc_iter_final p cipher_type o nIter (hc_restart_start p cipher_type o s))

/-- The state on entry to the climber: `best_score = 0`, all arrays
uninitialised, counters 0. -/
def hc_init : HCState :=
  ⟨[], [], [], 0, [], [], [], 0, false, 0, 0, 0⟩

/-- The adjustment at the top of the climber (src/quagmire.c:627-629):
Vigenère forces `cycleword_len = ALPHABET_SIZE`. -/
def hc_params_adjust (p : HCParams) (cipher_type : ℕ) : HCParams :=
  if cipher_type = VIGENERE then { p with cycleword_len := 26 } else p

/-- Every state visited inside the restarts of a full climber run. -/
noncomputable def hill_climber_trace (p : HCParams) (cipher_type : ℕ)
    (o : Oracle) (nIter nRestarts : ℕ) : List HCState :=
  hc_restart_traces (hc_params_adjust p cipher_type) cipher_type o nIter
    nRestarts hc_init

theorem hc_keyword_move_beaufort (p : HCParams) (o : Oracle) (s : HCState) :
    hc_keyword_move_p p BEAUFORT o s = false := by
  simp [hc_keyword_move_p]

theorem hc_perturb_beaufort (p : HCParams) (o : Oracle) (s : HCState) :
    hc_perturb p BEAUFORT o s =
      ⟨s.curPt, s.curCt,
        perturbate_cycleword o s.irc s.curCy p.cycleword_len,
        s.frc, s.irc + 2⟩ := by
  unfold hc_perturb
  rw [hc_keyword_move_beaufort]
  simp [hc_move_frc]

/-- The best-state part of the Beaufort keyword invariant: the best keyword
arrays are the identity alphabet, or still uninitialised with best score 0. -/
def BeaufortBestInv (s : HCState) : Prop :=
  (s.bestPt = List.range 26 ∧ s.bestCt = List.range 26) ∨
  (s.bestPt = [] ∧ s.bestCt = [] ∧ s.bestScore = 0)

/-- The Beaufort keyword invariant: both current keyword arrays are the
identity alphabet, and the best arrays satisfy `BeaufortBestInv`. -/
def BeaufortInv (s : HCState) : Prop :=
  s.curPt = List.range 26 ∧ s.curCt = List.range 26 ∧ BeaufortBestInv s

theorem hc_iteration_beaufort_inv (p : HCParams) (o : Oracle) (s : HCState)
    (h : BeaufortInv s) : BeaufortInv (hc_iteration p BEAUFORT o s) := by
  classical
  obtain ⟨hpt, hct, hbest⟩ := h
  unfold hc_iteration
  rw [hc_perturb_beaufort]
  simp only []
  rw [if_neg (by decide : ¬ (BEAUFORT ≠ VIGENERE ∧ BEAUFORT ≠ BEAUFORT))]
  simp only []
  repeat' split
  all_goals
    first
      | exact ⟨hpt, hct, Or.inl ⟨hpt, hct⟩⟩
      | exact ⟨hpt, hct, hbest⟩

theorem hc_restart_start_beaufort_inv (p : HCParams) (o : Oracle)
    (s : HCState) (h : BeaufortBestInv s) :
    BeaufortInv (hc_restart_start p BEAUFORT o s) := by
  classical
  unfold hc_restart_start hc_restart_entry
  by_cases hbs : 0 < s.bestScore
  · rw [if_pos hbs]
    rcases h with ⟨h1, h2⟩ | ⟨h1, h2, h3⟩
    · by_cases hfr : o.fr s.frc < p.backtracking_probability
      · rw [if_pos hfr]
        exact ⟨h1, h2, Or.inl ⟨h1, h2⟩⟩
      · rw [if_neg hfr]
        unfold hc_fresh_init
        simp only [if_neg (by decide : ¬ BEAUFORT = VIGENERE),
          if_neg (by decide : ¬ BEAUFORT = QUAGMIRE_1),
          if_neg (by decide : ¬ BEAUFORT = QUAGMIRE_2),
          if_neg (by decide : ¬ BEAUFORT = QUAGMIRE_3),
          if_neg (by decide : ¬ BEAUFORT = QUAGMIRE_4),
          if_pos (rfl : BEAUFORT = BEAUFORT)]
        exact ⟨rfl, rfl, Or.inl ⟨h1, h2⟩⟩
    · rw [h3] at hbs
      exact absurd hbs (lt_irrefl 0)
  · rw [if_neg hbs]
    unfold hc_fresh_init
    simp only [if_neg (by decide : ¬ BEAUFORT = VIGENERE),
      if_neg (by decide : ¬ BEAUFORT = QUAGMIRE_1),
      if_neg (by decide : ¬ BEAUFORT = QUAGMIRE_2),
      if_neg (by decide : ¬ BEAUFORT = QUAGMIRE_3),
      if_neg (by decide : ¬ BEAUFORT = QUAGMIRE_4),
      if_pos (rfl : BEAUFORT = BEAUFORT)]
    exact ⟨rfl, rfl, h⟩

theorem hc_iter_trace_beaufort_inv (p : HCParams) (o : Oracle) (nIter : ℕ) :
    ∀ s : HCState, BeaufortInv s →
      (∀ x ∈ hc_iter_trace p BEAUFORT o nIter s, BeaufortInv x) ∧
      BeaufortInv (hc_iter_final p BEAUFORT o nIter s) := by
  induction nIter with
  | zero =>
    intro s h
    refine ⟨?_, h⟩
    intro x hx
    rw [hc_iter_trace, List.mem_singleton] at hx
    rwa [hx]
  | succ n ih =>
    intro s h
    have h' := hc_iteration_beaufort_inv p o s h
    obtain ⟨ht, hf⟩ := ih (hc_iteration p BEAUFORT o s) h'
    refine ⟨?_, hf⟩
    intro x hx
    rw [hc_iter_trace, List.mem_cons] at hx
    rcases hx with rfl | hx
    · exact h
    · exact ht x hx

theorem hc_restart_traces_beaufort_inv (p : HCParams) (o : Oracle)
    (nIter : ℕ) : ∀ (r : ℕ) (s : HCState), BeaufortBestInv s →
      ∀ x ∈ hc_restart_traces p BEAUFORT o nIter r s, BeaufortInv x := by
  intro r
  induction r with
  | zero =>
    intro s _ x hx
    rw [hc_restart_traces] at hx
    exact absurd hx (List.not_mem_nil x)
  | succ r ih =>
    intro s h x hx
    have hstart := hc_restart_start_beaufort_inv p o s h
    obtain ⟨ht, hf⟩ := hc_iter_trace_beaufort_inv p o nIter _ hstart
    rw [hc_restart_traces, List.mem_append] at hx
    rcases hx with hx | hx
    · exact ht x hx
    · exact ih _ hf.2.2 x hx

/-- C8: for the Beaufort cipher kind the keyword-move condition of
src/quagmire.c:978 is false at EVERY state (its leading conjunct fails), so
every move is a cycleword perturbation; and every state reached inside the
restarts of a full run — after each restart entry and after each iteration —
has both current keyword arrays equal to the identity alphabet they were
initialised to. -/
theorem C8_beaufort_never_perturbs_keywords (p : HCParams) (o : Oracle)
    (nIter nRestarts : ℕ) :
    (∀ s : HCState, hc_keyword_move_p p BEAUFORT o s = false) ∧
    (∀ s ∈ hill_climber_trace p BEAUFORT o nIter nRestarts,
      s.curPt = List.range 26 ∧ s.curCt = List.range 26) := by
  refine ⟨fun s => hc_keyword_move_beaufort p o s, ?_⟩
  intro s hs
  have hinv := hc_restart_traces_beaufort_inv (hc_params_adjust p BEAUFORT) o
    nIter nRestarts hc_init (Or.inr ⟨rfl, rfl, rfl⟩) s hs
  exact ⟨hinv.1, hinv.2.1⟩

/-- C7 (amended): src/quagmire.c:967 sets `perturbate_keyword_p = true` at
the start of EVERY restart (fresh or backtracked) — not false as claimed —
so the first iteration of every restart takes the keyword branch for every
non-Beaufort cipher type, regardless of the keyword-permutation coin.
Within the iterations the flag-from-contradiction part of the claim holds:
for the Quagmire types the flag after an iteration equals the contradiction
flag of that iteration's `constrain_cycleword` call, and a Vigenère or
Beaufort iteration leaves the flag unchanged. -/
theorem hc_iteration_perturbKw (p : HCParams) (cipher_type : ℕ) (o : Oracle)
    (s : HCState) :
    (hc_iteration p cipher_type o s).perturbKw =
      (if cipher_type ≠ VIGENERE ∧ cipher_type ≠ BEAUFORT then
        constrain_cycleword p.cipher p.cribs (hc_perturb p cipher_type o s).pt
          (hc_perturb p cipher_type o s).ct (hc_perturb p cipher_type o s).cy
          p.cycleword_len p.variant
      else (s.perturbKw, (hc_perturb p cipher_type o s).cy)).1 := by
  classical
  unfold hc_iteration
  simp only []
  repeat' split
  all_goals rfl

theorem C7_perturbation_flag (p : HCParams) (cipher_type : ℕ) (o : Oracle)
    (s : HCState) :
    (hc_restart_start p cipher_type o s).perturbKw = true ∧
    (cipher_type ≠ BEAUFORT →
      hc_keyword_move_p p cipher_type o (hc_restart_start p cipher_type o s)
        = true) ∧
    (cipher_type ≠ VIGENERE → cipher_type ≠ BEAUFORT →
      (hc_iteration p cipher_type o s).perturbKw =
        (constrain_cycleword p.cipher p.cribs (hc_perturb p cipher_type o s).pt
          (hc_perturb p cipher_type o s).ct (hc_perturb p cipher_type o s).cy
          p.cycleword_len p.variant).1) ∧
    (cipher_type = VIGENERE ∨ cipher_type = BEAUFORT →
      (hc_iteration p cipher_type o s).perturbKw = s.perturbKw) := by
  classical
  refine ⟨rfl, ?_, ?_, ?_⟩
  · intro hb
    unfold hc_keyword_move_p
    have hpkw : (hc_restart_start p cipher_type o s).perturbKw = true := rfl
    rw [hpkw]
    simp [hb]
  · intro hv hb
    rw [hc_iteration_perturbKw, if_pos ⟨hv, hb⟩]
  · intro h
    rw [hc_iteration_perturbKw, if_neg ?_]
    · rcases h with h | h
      · intro hc
        exact absurd h hc.1
      · intro hc
        exact absurd h hc.2

/-- Concrete inputs for the C7 evidence: every `frand` value is 0, the
keyword-permutation probability is 0 and the backtracking probability is 1,
so a restart from a state with a positive best score backtracks and the
keyword coin always fails. -/
def C7ex_o : Oracle := ⟨fun k => 0, fun k => 0, fun k => []⟩

/-- Parameters: cipher `A`, no cribs, period 1, keyword lengths 5,
`backtracking_probability = 1`, `keyword_permutation_probability = 0`. -/
def C7ex_p : HCParams :=
  ⟨[0], [], 1, 5, 5, fun k => 0, 1, 1, 0, 0, 1, 1, 1, 1, false, false⟩

/-- A climber state with a recorded best score of 1. -/
def C7ex_s : HCState :=
  ⟨List.range 26, List.range 26, [0], 1, List.range 26, List.range 26, [0], 1,
    false, 0, 0, 0⟩

/-- C7 witness: the amended theorem applied at Quagmire III (parts 1-3) and
at Vigenère (part 4) on concrete inputs. -/
theorem C7_perturbation_flag_witness :
    ((hc_restart_start C7ex_p QUAGMIRE_3 C7ex_o C7ex_s).perturbKw = true ∧
      hc_keyword_move_p C7ex_p QUAGMIRE_3 C7ex_o
        (hc_restart_start C7ex_p QUAGMIRE_3 C7ex_o C7ex_s) = true ∧
      (hc_iteration C7ex_p QUAGMIRE_3 C7ex_o C7ex_s).perturbKw =
        (constrain_cycleword C7ex_p.cipher C7ex_p.cribs
          (hc_perturb C7ex_p QUAGMIRE_3 C7ex_o C7ex_s).pt
          (hc_perturb C7ex_p QUAGMIRE_3 C7ex_o C7ex_s).ct
          (hc_perturb C7ex_p QUAGMIRE_3 C7ex_o C7ex_s).cy
          C7ex_p.cycleword_len C7ex_p.variant).1) ∧
    (hc_iteration C7ex_p VIGENERE C7ex_o C7ex_s).perturbKw =
      C7ex_s.perturbKw := by
  have h3 := C7_perturbation_flag C7ex_p QUAGMIRE_3 C7ex_o C7ex_s
  have h0 := C7_perturbation_flag C7ex_p VIGENERE C7ex_o C7ex_s
  exact ⟨⟨h3.1, h3.2.1 (by decide), h3.2.2.1 (by decide) (by decide)⟩,
    h0.2.2.2 (Or.inl rfl)⟩

/-- C7 counterexample to the original claim: after a (backtracking) restart
the flag is TRUE, and the first move of the restart is a keyword
perturbation for Quagmire III even though the cipher is not Vigenère and
the keyword-permutation coin fails (probability 0) — the original claim
says the keyword would be perturbed only when the cipher is Vigenère or the
coin succeeds. -/
theorem C7_counterexample :
    QUAGMIRE_3 ≠ VIGENERE ∧
    (hc_restart_start C7ex_p QUAGMIRE_3 C7ex_o C7ex_s).perturbKw = true ∧
    ¬ (C7ex_o.fr (hc_restart_start C7ex_p QUAGMIRE_3 C7ex_o C7ex_s).frc <
        C7ex_p.keyword_permutation_probability) ∧
    hc_keyword_move_p C7ex_p QUAGMIRE_3 C7ex_o
      (hc_restart_start C7ex_p QUAGMIRE_3 C7ex_o C7ex_s) = true := by
  classical
  refine ⟨by decide, rfl, ?_, ?_⟩
  · show ¬ ((0 : ℝ) < 0)
    norm_num
  · unfold hc_keyword_move_p
    have hpkw : (hc_restart_start C7ex_p QUAGMIRE_3 C7ex_o C7ex_s).perturbKw
        = true := rfl
    rw [hpkw]
    simp only [Bool.true_or, Bool.and_true]
    decide

/-- C8 witness: the theorem applied to a one-restart, zero-iteration run on
concrete inputs; the single trace state is the restart entry, whose keyword
arrays are the identity alphabet. -/
theorem C8_beaufort_never_perturbs_keywords_witness :
    (hc_restart_start (hc_params_adjust C7ex_p BEAUFORT) BEAUFORT C7ex_o hc_init
      ∈ hill_climber_trace C7ex_p BEAUFORT C7ex_o 0 1) ∧
    ((hc_restart_start (hc_params_adjust C7ex_p BEAUFORT) BEAUFORT C7ex_o
        hc_init).curPt = List.range 26 ∧
      (hc_restart_start (hc_params_adjust C7ex_p BEAUFORT) BEAUFORT C7ex_o
        hc_init).curCt = List.range 26) := by
  have hmem : hc_restart_start (hc_params_adjust C7ex_p BEAUFORT) BEAUFORT
      C7ex_o hc_init ∈ hill_climber_trace C7ex_p BEAUFORT C7ex_o 0 1 := by
    unfold hill_climber_trace hc_restart_traces hc_iter_trace
    simp
  exact ⟨hmem,
    (C8_beaufort_never_perturbs_keywords C7ex_p C7ex_o 0 1).2 _ hmem⟩

end Quagmire
